import Mathlib

/-!
# Integer binary heap (`heap.go`) — shallow embedding and verification

The Go package wraps the standard library's `container/heap` around a slice
of `int` together with a direction flag.  The embedding follows the source
function by function:

* `HeapType`, `intSlice` and its five `heap.Interface` methods
  (`Len`, `Less`, `Swap`, `Push`, `Pop`) — `heap.go` lines 9–45;
* `ContainerHeap.up`, `down`, `Init`, `Push`, `Pop` — the Go standard library
  package `container/heap`, which `heap.go` imports and calls;
* `IntHeap` and its methods — `heap.go` lines 47–110.

Conventions.

* Slice indices are Go `int`s and are modelled in `Int`, so that the index
  `-1` computed by `Pop` on an empty heap is visible.  An index outside
  `0 ≤ i < len` raises the run-time panic `Panic.indexOutOfRange`.
  A slice of 8-byte integers has fewer than `2^60` elements, so the index
  arithmetic `2*i+1`, `j1+1` never leaves the 64-bit range; the overflow guard
  `j1 < 0` of `down` is kept in the model although it is then never taken.
* Element values are Go `int`s; the code only compares and moves them, so they
  are modelled as `Int`.
* A method that mutates its receiver maps the state before the call to a pair
  (outcome, state after the call); the outcome is `Except.ok v` when the call
  returns `v` and `Except.error p` when it panics.  The state component of a
  panicking call is the state at the moment of the panic.
* The two `for` loops of `container/heap` are structurally recursive on a fuel
  argument.  The wrappers `up` and `down` supply fuel from the loop variant;
  running out of fuel is reported as `Panic.fuelExhausted`, which the theorems
  below show never happens.
-/

deriving instance DecidableEq for Except

namespace Heap

/-- HeapType represents the type of heap (min or max). -/
inductive HeapType where
  | MinHeap
  | MaxHeap
deriving DecidableEq, Repr

/-- Abnormal termination of a call: a Go run-time panic, or (for the model
only) exhaustion of the loop fuel. -/
inductive Panic where
  | indexOutOfRange
  | fuelExhausted
deriving DecidableEq, Repr

/-- The struct `intSlice`: the backing slice `items` and the direction. -/
structure intSlice where
  items : List Int
  heapType : HeapType
deriving DecidableEq, Repr

/-- The struct `IntHeap`: a pointer to an `intSlice`. -/
structure IntHeap where
  items : intSlice
deriving DecidableEq, Repr

/-- Go index expression `xs[i]`: panics unless `0 ≤ i < len(xs)`. -/
def index (xs : List Int) (i : Int) : Except Panic Int :=
  if 0 ≤ i ∧ i < (xs.length : Int) then .ok (xs.getD i.toNat 0)
  else .error Panic.indexOutOfRange

/-- Method `func (h intSlice) Len() int`. -/
def intSlice.Len (h : intSlice) : Int := (h.items.length : Int)

/-- Method `func (h intSlice) Less(i, j int) bool`: `items[i] < items[j]` for a
min-heap and `items[i] > items[j]` for a max-heap. -/
def intSlice.Less (h : intSlice) (i j : Int) : Except Panic Bool :=
  if h.heapType = HeapType.MinHeap then
    match index h.items i with
    | .error e => .error e
    | .ok a =>
      match index h.items j with
      | .error e => .error e
      | .ok b => .ok (decide (a < b))
  else
    match index h.items i with
    | .error e => .error e
    | .ok a =>
      match index h.items j with
      | .error e => .error e
      | .ok b => .ok (decide (a > b))

/-- Method `func (h intSlice) Swap(i, j int)`, the tuple assignment
`h.items[i], h.items[j] = h.items[j], h.items[i]`.  Both right-hand sides are
evaluated (and range-checked) before either store, so a panicking call has
stored nothing. -/
def intSlice.Swap (h : intSlice) (i j : Int) : Except Panic intSlice :=
  match index h.items j with
  | .error e => .error e
  | .ok a =>
    match index h.items i with
    | .error e => .error e
    | .ok b => .ok (intSlice.mk ((h.items.set i.toNat a).set j.toNat b) h.heapType)

/-- Method `func (h *intSlice) Push(x interface{})`: `append(h.items, x.(int))`. -/
def intSlice.Push (h : intSlice) (x : Int) : intSlice :=
  intSlice.mk (h.items ++ [x]) h.heapType

/-- Method `func (h *intSlice) Pop() interface{}`: reads `old[n-1]`, then
reslices to `old[0 : n-1]`.  (The store `old[n-1] = 0` hits the backing array
beyond the new length and is not visible through `h.items`.) -/
def intSlice.Pop (h : intSlice) : Except Panic Int × intSlice :=
  let old := h.items
  let n : Int := (old.length : Int)
  match index old (n - 1) with
  | .error e => (.error e, h)
  | .ok x => (.ok x, intSlice.mk (old.take (n - 1).toNat) h.heapType)

end Heap

/-! ## The standard library package `container/heap` -/

namespace ContainerHeap

open Heap

/-- The loop of `func up(h Interface, j int)`:
`for { i := (j - 1) / 2; if i == j || !h.Less(j, i) { break }; h.Swap(i, j); j = i }`.
Go integer division truncates toward zero (`Int.tdiv`). -/
def upLoop : Nat → intSlice → Int → Except Panic Unit × intSlice
  | 0, h, _ => (.error Panic.fuelExhausted, h)
  | fuel + 1, h, j =>
    let i := (j - 1).tdiv 2
    if i = j then (.ok (), h)
    else
      match h.Less j i with
      | .error e => (.error e, h)
      | .ok false => (.ok (), h)
      | .ok true =>
        match h.Swap i j with
        | .error e => (.error e, h)
        | .ok h1 => upLoop fuel h1 i

/-- Function `up(h, j)`.  Each iteration replaces `j` by its parent, which is
strictly nearer to zero, so `|j| + 1` iterations suffice. -/
def up (h : intSlice) (j : Int) : Except Panic Unit × intSlice :=
  upLoop (j.natAbs + 1) h j

/-- The loop of `func down(h Interface, i0, n int) bool`, with the loop
variable `i` made explicit:
`for { j1 := 2*i + 1; if j1 >= n || j1 < 0 { break }; j := j1;`
`if j2 := j1 + 1; j2 < n && h.Less(j2, j1) { j = j2 };`
`if !h.Less(j, i) { break }; h.Swap(i, j); i = j }; return i > i0`. -/
def downLoop : Nat → intSlice → Int → Int → Int → Except Panic Bool × intSlice
  | 0, h, _, _, _ => (.error Panic.fuelExhausted, h)
  | fuel + 1, h, i0, i, n =>
    let j1 := 2 * i + 1
    if j1 ≥ n ∨ j1 < 0 then (.ok (decide (i > i0)), h)
    else
      let j2 := j1 + 1
      match (if j2 < n then h.Less j2 j1 else .ok false) with
      | .error e => (.error e, h)
      | .ok right =>
        let j := if right then j2 else j1
        match h.Less j i with
        | .error e => (.error e, h)
        | .ok false => (.ok (decide (i > i0)), h)
        | .ok true =>
          match h.Swap i j with
          | .error e => (.error e, h)
          | .ok h1 => downLoop fuel h1 i0 j n

/-- Function `down(h, i0, n)`.  Each iteration strictly increases `i` and keeps
it below `n`, so `n - i0 + 1` iterations suffice. -/
def down (h : intSlice) (i0 n : Int) : Except Panic Bool × intSlice :=
  downLoop ((n - i0).toNat + 1) h i0 i0 n

/-- The loop of `func Init(h Interface)`:
`for i := n/2 - 1; i >= 0; i-- { down(h, i, n) }`. -/
def initLoop : Nat → intSlice → Int → Int → Except Panic Unit × intSlice
  | 0, h, _, _ => (.error Panic.fuelExhausted, h)
  | fuel + 1, h, i, n =>
    if i ≥ 0 then
      match down h i n with
      | (.error e, h1) => (.error e, h1)
      | (.ok _, h1) => initLoop fuel h1 (i - 1) n
    else (.ok (), h)

/-- Function `Init(h)`: `n := h.Len()` followed by the heapify loop, which
runs for `i = n/2 - 1, …, 0`. -/
def Init (h : intSlice) : Except Panic Unit × intSlice :=
  let n := h.Len
  initLoop ((n.tdiv 2).toNat + 1) h (n.tdiv 2 - 1) n

/-- Function `Push(h, x)`: `h.Push(x); up(h, h.Len()-1)`. -/
def Push (h : intSlice) (x : Int) : Except Panic Unit × intSlice :=
  let h1 := h.Push x
  up h1 (h1.Len - 1)

/-- Function `Pop(h)`:
`n := h.Len() - 1; h.Swap(0, n); down(h, 0, n); return h.Pop()`. -/
def Pop (h : intSlice) : Except Panic Int × intSlice :=
  let n := h.Len - 1
  match h.Swap 0 n with
  | .error e => (.error e, h)
  | .ok h1 =>
    match down h1 0 n with
    | (.error e, h2) => (.error e, h2)
    | (.ok _, h2) => h2.Pop

end ContainerHeap

/-! ## The exported type `IntHeap` -/

namespace Heap

/-- Function `NewHeapWithType(heapType)`: allocates the empty slice with the
given direction and calls `heap.Init` on it; the result is the heap holding
the state `heap.Init` leaves. -/
def NewHeapWithType (heapType : HeapType) : IntHeap :=
  IntHeap.mk (ContainerHeap.Init (intSlice.mk [] heapType)).2

/-- Function `NewHeap()`: `NewHeapWithType(MinHeap)`. -/
def NewHeap : IntHeap := NewHeapWithType HeapType.MinHeap

/-- Function `NewMaxHeap()`: `NewHeapWithType(MaxHeap)`. -/
def NewMaxHeap : IntHeap := NewHeapWithType HeapType.MaxHeap

/-- Method `func (h *IntHeap) Push(x int)`: `heap.Push(h.items, x)`. -/
def IntHeap.Push (h : IntHeap) (x : Int) : Except Panic Unit × IntHeap :=
  ((ContainerHeap.Push h.items x).1, IntHeap.mk (ContainerHeap.Push h.items x).2)

/-- Method `func (h *IntHeap) Pop() int`: `heap.Pop(h.items).(int)`. -/
def IntHeap.Pop (h : IntHeap) : Except Panic Int × IntHeap :=
  ((ContainerHeap.Pop h.items).1, IntHeap.mk (ContainerHeap.Pop h.items).2)

/-- Method `func (h *IntHeap) Len() int`: `len(h.items.items)`. -/
def IntHeap.Len (h : IntHeap) : Int := (h.items.items.length : Int)

/-- Method `func (h *IntHeap) Peek() int`: `0` when `h.Len() == 0`, else
`h.items.items[0]`. -/
def IntHeap.Peek (h : IntHeap) : Except Panic Int :=
  if h.Len = 0 then .ok 0 else index h.items.items 0

/-- Method `func (h *IntHeap) Empty() bool`: `h.Len() == 0`. -/
def IntHeap.Empty (h : IntHeap) : Bool := decide (h.Len = 0)

/-- Method `func (h *IntHeap) Size() int`: `h.Len()`. -/
def IntHeap.Size (h : IntHeap) : Int := h.Len

/-- Method `func (h *IntHeap) GetHeapType() HeapType`. -/
def IntHeap.GetHeapType (h : IntHeap) : HeapType := h.items.heapType

end Heap

/-! ## Specification vocabulary -/

namespace Heap

/-- The heap-order relation between a parent value `a` and a child value `b`:
`a ≤ b` in a min-heap, `a ≥ b` in a max-heap. -/
def HeapType.rel (t : HeapType) (a b : Int) : Prop :=
  match t with
  | HeapType.MinHeap => a ≤ b
  | HeapType.MaxHeap => b ≤ a

instance HeapType.decRel (t : HeapType) : DecidableRel t.rel := fun a b =>
  match t with
  | HeapType.MinHeap => inferInstanceAs (Decidable (a ≤ b))
  | HeapType.MaxHeap => inferInstanceAs (Decidable (b ≤ a))

/-- The strict comparison `Less` evaluates on two values. -/
def HeapType.less (t : HeapType) (a b : Int) : Bool :=
  match t with
  | HeapType.MinHeap => decide (a < b)
  | HeapType.MaxHeap => decide (a > b)

/-- Heap-order invariant of an element sequence: every index `i` is in relation
with each of its children `c ∈ {2i+1, 2i+2}` that exists. -/
def HeapOrdered (t : HeapType) (xs : List Int) : Prop :=
  ∀ i < xs.length, ∀ c < xs.length, (c = 2 * i + 1 ∨ c = 2 * i + 2) →
    t.rel (xs.getD i 0) (xs.getD c 0)

instance HeapOrdered.dec (t : HeapType) (xs : List Int) : Decidable (HeapOrdered t xs) :=
  inferInstanceAs (Decidable (∀ i < xs.length, ∀ c < xs.length, (c = 2 * i + 1 ∨ c = 2 * i + 2) →
    t.rel (xs.getD i 0) (xs.getD c 0)))

/-- The invariant restricted to the first `n` positions, in parent form. -/
def HeapPrefix (t : HeapType) (xs : List Int) (n : Nat) : Prop :=
  ∀ c, 0 < c → c < n → t.rel (xs.getD ((c - 1) / 2) 0) (xs.getD c 0)

/-- Exchange of the values at positions `i` and `j`. -/
def swapAt (xs : List Int) (i j : Nat) : List Int :=
  (xs.set i (xs.getD j 0)).set j (xs.getD i 0)

/-- Loop invariant of `up` at position `k`: order holds on every edge except
the one above `k`, and the children of `k` are in order with the parent of `k`. -/
def UpInv (t : HeapType) (xs : List Int) (k : Nat) : Prop :=
  (∀ c, 0 < c → c < xs.length → c ≠ k → t.rel (xs.getD ((c - 1) / 2) 0) (xs.getD c 0)) ∧
  (∀ c, 0 < c → c < xs.length → (c - 1) / 2 = k → 0 < k →
    t.rel (xs.getD ((k - 1) / 2) 0) (xs.getD c 0))

/-- Loop invariant of `down` at position `i` within the first `n` positions:
order holds on every edge except those below `i`, and the children of `i` are
in order with the parent of `i`. -/
def DownInv (t : HeapType) (xs : List Int) (i n : Nat) : Prop :=
  (∀ c, 0 < c → c < n → (c - 1) / 2 ≠ i → t.rel (xs.getD ((c - 1) / 2) 0) (xs.getD c 0)) ∧
  (∀ c, 0 < c → c < n → (c - 1) / 2 = i → 0 < i →
    t.rel (xs.getD ((i - 1) / 2) 0) (xs.getD c 0))

end Heap

namespace Heap

/-- The child `down` compares with position `i`: the right child `2i+2` when it
lies below `n` and `Less` ranks it before the left child, else the left child. -/
def pickChild (t : HeapType) (xs : List Int) (i n : Nat) : Nat :=
  if 2 * i + 2 < n ∧ t.less (xs.getD (2 * i + 2) 0) (xs.getD (2 * i + 1) 0) = true
  then 2 * i + 2 else 2 * i + 1

end Heap

/-! ## Call sequences -/

namespace Heap

/-- The loop `for _, num := range numbers { h.Push(num) }` of the tests and of
the example program; it ends at the first call that panics. -/
def pushAll (h : IntHeap) : List Int → Except Panic Unit × IntHeap
  | [] => (.ok (), h)
  | x :: xs =>
    match h.Push x with
    | (.error e, h1) => (.error e, h1)
    | (.ok _, h1) => pushAll h1 xs

/-- The first `n` results of calling `h.Pop()` repeatedly, in order, and the
heap left behind; it ends at the first call that panics. -/
def popN (h : IntHeap) : Nat → Except Panic (List Int) × IntHeap
  | 0 => (.ok [], h)
  | n + 1 =>
    match h.Pop with
    | (.error e, h1) => (.error e, h1)
    | (.ok v, h1) =>
      match popN h1 n with
      | (.error e, h2) => (.error e, h2)
      | (.ok vs, h2) => (.ok (v :: vs), h2)

/-- States a program reaches from a freshly constructed heap by `Push` calls
and by `Pop` calls on a non-empty heap. -/
inductive Reachable : IntHeap → Prop where
  | fresh (t : HeapType) : Reachable (NewHeapWithType t)
  | push {h : IntHeap} (x : Int) : Reachable h → Reachable (h.Push x).2
  | pop {h : IntHeap} : Reachable h → h.Len ≠ 0 → Reachable h.Pop.2

/-- One mutating call of the public interface. -/
inductive Op where
  | push (x : Int)
  | pop
deriving DecidableEq, Repr

/-- The heap after one call.  A `Pop` that panics is taken to be recovered by
the caller, who goes on with the heap as the panic left it. -/
def IntHeap.apply (h : IntHeap) : Op → IntHeap
  | Op.push x => (h.Push x).2
  | Op.pop => h.Pop.2

/-- The heap after a sequence of calls, made in order. -/
def IntHeap.run (h : IntHeap) : List Op → IntHeap
  | [] => h
  | op :: ops => (h.apply op).run ops

/-- Number of `Push` calls in a sequence. -/
def pushCount : List Op → Nat
  | [] => 0
  | Op.push _ :: ops => pushCount ops + 1
  | Op.pop :: ops => pushCount ops

/-- Number of `Pop` calls of the sequence that find the heap non-empty, when
the sequence is run from `h`. -/
def popCount (h : IntHeap) : List Op → Nat
  | [] => 0
  | Op.push x :: ops => popCount (h.apply (Op.push x)) ops
  | Op.pop :: ops => (if h.Len = 0 then 0 else 1) + popCount (h.apply Op.pop) ops

end Heap

/-! ## Draining, printing and read-only calls -/

namespace Heap

/-- The loop `for !h.Empty() { v := h.Pop(); … }` of `TestLargeHeap` and of the
example program: the values popped, in order, and the heap left behind.  It
ends at the first call that panics. -/
def drainLoop : Nat → IntHeap → Except Panic (List Int) × IntHeap
  | 0, h => (.error Panic.fuelExhausted, h)
  | fuel + 1, h =>
    if h.Empty = true then (.ok [], h)
    else
      match h.Pop with
      | (.error e, h1) => (.error e, h1)
      | (.ok v, h1) =>
        match drainLoop fuel h1 with
        | (.error e, h2) => (.error e, h2)
        | (.ok vs, h2) => (.ok (v :: vs), h2)

/-- The drain loop with fuel from its variant: every iteration whose `Pop`
returns shortens the heap by one, so `Len() + 1` iterations suffice. -/
def drain (h : IntHeap) : Except Panic (List Int) × IntHeap :=
  drainLoop (h.Len.toNat + 1) h

/-- Method `func (h *IntHeap) printTreeHelper(index int, prefix string, isLeft bool)`
in state-passing form: the outcome, the text written to standard output, and
the heap after the call.  The parameter `prefix` is written `pfx`. -/
def IntHeap.printTreeHelper :
    Nat → IntHeap → Int → String → Bool → Except Panic Unit × String × IntHeap
  | 0, h, _, _, _ => (.error Panic.fuelExhausted, "", h)
  | fuel + 1, h, idx, pfx, isLeft =>
    if idx ≥ (h.items.items.length : Int) then (.ok (), "", h)
    else
      let mark := if isLeft then "└── " else "┌── "
      match index h.items.items idx with
      | .error e => (.error e, pfx ++ mark, h)
      | .ok v =>
        let line := pfx ++ mark ++ toString v ++ "\n"
        let newPrefix := if isLeft then pfx ++ "    " else pfx ++ "│   "
        let leftChild := 2 * idx + 1
        let rightChild := 2 * idx + 2
        let hasLeft := decide (leftChild < (h.items.items.length : Int))
        let hasRight := decide (rightChild < (h.items.items.length : Int))
        match (if hasLeft then IntHeap.printTreeHelper fuel h leftChild newPrefix (!hasRight)
               else (.ok (), "", h)) with
        | (.error e, o1, h1) => (.error e, line ++ o1, h1)
        | (.ok _, o1, h1) =>
          match (if hasRight then IntHeap.printTreeHelper fuel h1 rightChild newPrefix true
                 else (.ok (), "", h1)) with
          | (r2, o2, h2) => (r2, line ++ o1 ++ o2, h2)

/-- Method `func (h *IntHeap) PrintTree()`.  A recursive call of the helper is
made on a child index, which is larger than the index of the caller and below
`Len()`, so `Len() + 1` levels of recursion suffice. -/
def IntHeap.PrintTree (h : IntHeap) : Except Panic Unit × String × IntHeap :=
  if h.Empty = true then (.ok (), "Empty heap\n", h)
  else
    let heapType := if h.GetHeapType = HeapType.MaxHeap then "max-heap" else "min-heap"
    let head := "Heap as tree (" ++ heapType ++ "):\n"
    match IntHeap.printTreeHelper (h.Len.toNat + 1) h 0 "" true with
    | (r, o, h1) => (r, head ++ o, h1)

/-- Method `func (h *IntHeap) PrintArray()`; `%v` prints the slice as its
elements in decimal, separated by blanks, between square brackets. -/
def IntHeap.PrintArray (h : IntHeap) : Except Panic Unit × String × IntHeap :=
  if h.Empty = true then (.ok (), "Empty heap\n", h)
  else
    let heapType := if h.GetHeapType = HeapType.MaxHeap then "max-heap" else "min-heap"
    (.ok (), "Heap as array (" ++ heapType ++ "): [" ++
      String.intercalate " " (h.items.items.map toString) ++ "]\n", h)

/-- The read-only methods of `IntHeap`. -/
inductive ReadCall where
  | Peek
  | Len
  | Size
  | Empty
  | GetHeapType
  | PrintTree
  | PrintArray
deriving DecidableEq, Repr

/-- Whether a read-only call returns, that is, does not panic. -/
def IntHeap.readReturns (h : IntHeap) : ReadCall → Bool
  | ReadCall.Peek => h.Peek.toBool
  | ReadCall.PrintTree => h.PrintTree.1.toBool
  | ReadCall.PrintArray => h.PrintArray.1.toBool
  | _ => true

/-- The heap after a read-only call.  The bodies of `Peek`, `Len`, `Size`,
`Empty` and `GetHeapType` consist of reads and a `return`, so the heap after
the call is the receiver; for `PrintTree` and `PrintArray` it is the heap their
state-passing models hand back. -/
def IntHeap.afterRead (h : IntHeap) : ReadCall → IntHeap
  | ReadCall.PrintTree => h.PrintTree.2.2
  | ReadCall.PrintArray => h.PrintArray.2.2
  | _ => h

end Heap

/-! ## The extraction algorithm as the specification words it -/

namespace Heap

/-- Sift-down as the specification describes it (§4.1, ExtractTop): at each
step compare with both children (if present), select the child satisfying the
extreme relation among the two, swap if the current node violates the relation
against that child, and continue until no violation or no children remain.
The right child is selected when the left one is not in relation with it; of
two equal children the left one is taken.  The result is `none` when the fuel
runs out. -/
def specSiftDown (t : HeapType) : Nat → List Int → Nat → Option (List Int)
  | 0, _, _ => none
  | fuel + 1, xs, i =>
    if xs.length ≤ 2 * i + 1 then some xs
    else
      let c := if 2 * i + 2 < xs.length ∧ ¬ t.rel (xs.getD (2 * i + 1) 0) (xs.getD (2 * i + 2) 0)
        then 2 * i + 2 else 2 * i + 1
      if ¬ t.rel (xs.getD i 0) (xs.getD c 0) then specSiftDown t fuel (swapAt xs i c) c
      else some xs

/-- ExtractTop as the specification describes it: fail on an empty sequence;
otherwise save the root value, move the last element into index 0, shrink the
sequence by one, then sift the new root down. -/
def specExtractTop (t : HeapType) (xs : List Int) : Option (Int × List Int) :=
  match xs with
  | [] => none
  | root :: rest =>
    let last := (root :: rest).getD rest.length 0
    let moved := ((root :: rest).set 0 last).dropLast
    match specSiftDown t (moved.length + 1) moved 0 with
    | none => none
    | some ys => some (root, ys)

end Heap

/-! ## Min/max duality -/

namespace Heap

/-- The opposite direction. -/
def HeapType.flip : HeapType → HeapType
  | HeapType.MinHeap => HeapType.MaxHeap
  | HeapType.MaxHeap => HeapType.MinHeap

/-- The slice with every element negated and the direction reversed. -/
def negSlice (h : intSlice) : intSlice :=
  intSlice.mk (h.items.map (fun a => -a)) h.heapType.flip

/-- The heap with every element negated and the direction reversed. -/
def negHeap (h : IntHeap) : IntHeap := IntHeap.mk (negSlice h.items)

/-- The call with the pushed value negated. -/
def negOp : Op → Op
  | Op.push x => Op.push (-x)
  | Op.pop => Op.pop

/-- What one step of a call sequence shows: the outcome of the call (the value a
`Pop` returns, nothing for a `Push`) and the element sequence after it. -/
def IntHeap.trace (h : IntHeap) : List Op → List (Except Panic (Option Int) × List Int)
  | [] => []
  | Op.push x :: ops =>
    (match (h.Push x).1 with
      | .ok _ => .ok none
      | .error e => .error e, (h.Push x).2.items.items) :: (h.Push x).2.trace ops
  | Op.pop :: ops =>
    (match h.Pop.1 with
      | .ok v => .ok (some v)
      | .error e => .error e, h.Pop.2.items.items) :: h.Pop.2.trace ops

/-- Element-wise negation of one observed step. -/
def negStep (s : Except Panic (Option Int) × List Int) : Except Panic (Option Int) × List Int :=
  (match s.1 with
    | .ok (some v) => .ok (some (-v))
    | .ok none => .ok none
    | .error e => .error e, s.2.map (fun a => -a))

end Heap

/-! ## Elementary facts -/

namespace Heap

theorem rel_refl (t : HeapType) (a : Int) : t.rel a a := by
  cases t <;> simp [HeapType.rel]

theorem rel_trans {t : HeapType} {a b c : Int} (h1 : t.rel a b) (h2 : t.rel b c) : t.rel a c := by
  cases t <;> simp only [HeapType.rel] at * <;> omega

theorem rel_of_less {t : HeapType} {a b : Int} (h : t.less a b = true) : t.rel a b := by
  cases t <;> simp only [HeapType.rel, HeapType.less, decide_eq_true_eq] at * <;> omega

theorem rel_of_not_less {t : HeapType} {a b : Int} (h : t.less a b = false) : t.rel b a := by
  cases t <;> simp only [HeapType.rel, HeapType.less, decide_eq_false_iff_not] at * <;> omega

theorem index_ok (xs : List Int) (k : Nat) (h : k < xs.length) :
    index xs (k : Int) = .ok (xs.getD k 0) := by
  have h1 : (0 : Int) ≤ (k : Int) ∧ (k : Int) < (xs.length : Int) := by omega
  simp [index, h1]

theorem index_neg (xs : List Int) (i : Int) (h : i < 0) :
    index xs i = .error Panic.indexOutOfRange := by
  have h1 : ¬ ((0 : Int) ≤ i ∧ i < (xs.length : Int)) := by omega
  simp [index, h1]

theorem Less_ok (t : HeapType) (xs : List Int) (i j : Nat) (hi : i < xs.length)
    (hj : j < xs.length) :
    (intSlice.mk xs t).Less (i : Int) (j : Int) = .ok (t.less (xs.getD i 0) (xs.getD j 0)) := by
  cases t <;> simp [intSlice.Less, index_ok, hi, hj, HeapType.less]

theorem Swap_ok (t : HeapType) (xs : List Int) (i j : Nat) (hi : i < xs.length)
    (hj : j < xs.length) :
    (intSlice.mk xs t).Swap (i : Int) (j : Int) = .ok (intSlice.mk (swapAt xs i j) t) := by
  simp [intSlice.Swap, index_ok, hi, hj, swapAt]

theorem length_swapAt (xs : List Int) (i j : Nat) : (swapAt xs i j).length = xs.length := by
  simp [swapAt]

theorem getD_swapAt (xs : List Int) (i j k : Nat) (hi : i < xs.length) (hj : j < xs.length) :
    (swapAt xs i j).getD k 0 =
      if k = j then xs.getD i 0 else if k = i then xs.getD j 0 else xs.getD k 0 := by
  simp only [swapAt, List.getD_eq_getElem?_getD, List.getElem?_set, List.length_set]
  by_cases h1 : j = k
  · subst h1; simp [hj]
  · have h1b : ¬ k = j := fun h => h1 h.symm
    by_cases h2 : i = k
    · subst h2; simp [h1, h1b, hi]
    · have h2b : ¬ k = i := fun h => h2 h.symm
      simp [h1, h1b, h2, h2b]

theorem swapAt_perm (xs : List Int) (i j : Nat) (hi : i < xs.length) (hj : j < xs.length) :
    (swapAt xs i j).Perm xs := by
  rw [List.perm_iff_count]
  intro a
  have hgi : xs.getD i 0 = xs[i] := by simp [List.getD_eq_getElem?_getD, hi]
  have hgj : xs.getD j 0 = xs[j] := by simp [List.getD_eq_getElem?_getD, hj]
  have hj2 : j < (xs.set i (xs.getD j 0)).length := by simpa using hj
  have ci := List.boole_getElem_le_count a xs i hi
  have cj := List.boole_getElem_le_count a xs j hj
  simp only [swapAt]
  rw [List.count_set _ _ _ _ hj2, List.count_set _ _ _ _ hi]
  simp only [List.getElem_set, hgi, hgj]
  by_cases hij : i = j
  · subst hij
    simp only [if_true]
    split_ifs at * <;> omega
  · simp only [hij, if_false]
    split_ifs at * <;> omega

end Heap

/-! ## Sift-up -/

namespace Heap

theorem parent_cast (k : Nat) (hk : 0 < k) :
    ((k : Int) - 1).tdiv 2 = (((k - 1) / 2 : Nat) : Int) := by
  have h1 : ((k : Int) - 1) = (((k - 1 : Nat)) : Int) := by omega
  rw [h1, Int.tdiv_eq_ediv (by omega) (by omega)]
  norm_cast

theorem heapPrefix_of_upInv_root {t : HeapType} {xs : List Int} (inv : UpInv t xs 0) :
    HeapPrefix t xs xs.length := by
  intro c hc0 hcl
  exact inv.1 c hc0 hcl (by omega)

theorem heapPrefix_of_upInv_rel {t : HeapType} {xs : List Int} {k : Nat}
    (inv : UpInv t xs k) (hrel : t.rel (xs.getD ((k - 1) / 2) 0) (xs.getD k 0)) :
    HeapPrefix t xs xs.length := by
  intro c hc0 hcl
  by_cases hck : c = k
  · subst hck; exact hrel
  · exact inv.1 c hc0 hcl hck

theorem upInv_step {t : HeapType} {xs : List Int} {k : Nat} (hk : 0 < k) (hlen : k < xs.length)
    (hless : t.less (xs.getD k 0) (xs.getD ((k - 1) / 2) 0) = true) (inv : UpInv t xs k) :
    UpInv t (swapAt xs ((k - 1) / 2) k) ((k - 1) / 2) := by
  obtain ⟨h1, h2⟩ := inv
  have hp : (k - 1) / 2 < k := by omega
  have hpl : (k - 1) / 2 < xs.length := by omega
  have hkp := rel_of_less hless
  refine ⟨?_, ?_⟩
  · intro c hc0 hcl hcp
    rw [length_swapAt] at hcl
    rw [getD_swapAt _ _ _ _ hpl hlen, getD_swapAt _ _ _ _ hpl hlen]
    by_cases e1 : (c - 1) / 2 = k
    · have e2 : ¬ c = k := by omega
      rw [if_pos e1, if_neg e2, if_neg hcp]
      have := h2 c hc0 hcl e1 hk
      exact this
    · rw [if_neg e1]
      by_cases e3 : (c - 1) / 2 = (k - 1) / 2
      · rw [if_pos e3]
        by_cases e2 : c = k
        · rw [if_pos e2]; exact hkp
        · rw [if_neg e2, if_neg hcp]
          have := h1 c hc0 hcl e2
          rw [e3] at this
          exact rel_trans hkp this
      · rw [if_neg e3]
        have e2 : ¬ c = k := by intro h; subst h; exact e3 rfl
        rw [if_neg e2, if_neg hcp]
        exact h1 c hc0 hcl e2
  · intro c hc0 hcl hcp hp0
    rw [length_swapAt] at hcl
    rw [getD_swapAt _ _ _ _ hpl hlen, getD_swapAt _ _ _ _ hpl hlen]
    have e1 : ¬ ((k - 1) / 2 - 1) / 2 = k := by omega
    have e2 : ¬ ((k - 1) / 2 - 1) / 2 = (k - 1) / 2 := by omega
    rw [if_neg e1, if_neg e2]
    have hpp := h1 ((k - 1) / 2) hp0 hpl (by omega)
    by_cases e3 : c = k
    · rw [if_pos e3]; exact hpp
    · have e4 : ¬ c = (k - 1) / 2 := by omega
      rw [if_neg e3, if_neg e4]
      have := h1 c hc0 hcl e3
      rw [hcp] at this
      exact rel_trans hpp this

theorem upLoop_spec (t : HeapType) : ∀ (fuel : Nat) (xs : List Int) (k : Nat),
    k < xs.length → k < fuel →
    ∃ ys, ContainerHeap.upLoop fuel (intSlice.mk xs t) (k : Int) = (.ok (), intSlice.mk ys t) ∧
      ys.Perm xs ∧ (UpInv t xs k → HeapPrefix t ys ys.length) := by
  intro fuel
  induction fuel with
  | zero => intro xs k _ h; omega
  | succ fuel ih =>
    intro xs k hlen hfuel
    by_cases hk : k = 0
    · subst hk
      refine ⟨xs, ?_, List.Perm.refl _, heapPrefix_of_upInv_root⟩
      have h0 : ((((0 : Nat) : Int)) - 1).tdiv 2 = ((0 : Nat) : Int) := by decide
      rw [ContainerHeap.upLoop]
      simp only [h0, if_true]
    · have hk0 : 0 < k := by omega
      have hp : (k - 1) / 2 < k := by omega
      have hpl : (k - 1) / 2 < xs.length := by omega
      have hne : ¬ (((k - 1) / 2 : Nat) : Int) = (k : Int) := by omega
      rw [ContainerHeap.upLoop]
      simp only [parent_cast k hk0, hne, if_false, Less_ok t xs k ((k - 1) / 2) hlen hpl]
      cases hless : t.less (xs.getD k 0) (xs.getD ((k - 1) / 2) 0) with
      | false =>
        refine ⟨xs, rfl, List.Perm.refl _, fun inv => ?_⟩
        exact heapPrefix_of_upInv_rel inv (rel_of_not_less hless)
      | true =>
        simp only [Swap_ok t xs ((k - 1) / 2) k hpl hlen]
        obtain ⟨ys, e, p, hh⟩ := ih (swapAt xs ((k - 1) / 2) k) ((k - 1) / 2)
          (by rw [length_swapAt]; exact hpl) (by omega)
        refine ⟨ys, e, p.trans (swapAt_perm xs _ _ hpl hlen), fun inv => ?_⟩
        exact hh (upInv_step hk0 hlen hless inv)

end Heap

/-! ## Sift-down -/

namespace Heap

theorem pickChild_cases (t : HeapType) (xs : List Int) (i n : Nat) :
    pickChild t xs i n = 2 * i + 1 ∨ (pickChild t xs i n = 2 * i + 2 ∧ 2 * i + 2 < n) := by
  unfold pickChild
  split_ifs with h
  · exact Or.inr ⟨rfl, h.1⟩
  · exact Or.inl rfl

theorem pickChild_min (t : HeapType) (xs : List Int) (i n c : Nat) (hc0 : 0 < c) (hcn : c < n)
    (hpar : (c - 1) / 2 = i) :
    t.rel (xs.getD (pickChild t xs i n) 0) (xs.getD c 0) := by
  have hc : c = 2 * i + 1 ∨ c = 2 * i + 2 := by omega
  unfold pickChild
  split_ifs with h
  · rcases hc with hc | hc
    · subst hc; exact rel_of_less h.2
    · subst hc; exact rel_refl _ _
  · rcases hc with hc | hc
    · subst hc; exact rel_refl _ _
    · subst hc
      have h2 : t.less (xs.getD (2 * i + 2) 0) (xs.getD (2 * i + 1) 0) = false := by
        cases hl : t.less (xs.getD (2 * i + 2) 0) (xs.getD (2 * i + 1) 0) with
        | false => rfl
        | true => exact absurd ⟨hcn, hl⟩ h
      exact rel_of_not_less h2

theorem downLoop_stop (t : HeapType) (fuel : Nat) (xs : List Int) (i0 : Int) (i n : Nat)
    (h : n ≤ 2 * i + 1) :
    ContainerHeap.downLoop (fuel + 1) (intSlice.mk xs t) i0 (i : Int) (n : Int) =
      (.ok (decide ((i : Int) > i0)), intSlice.mk xs t) := by
  have h1 : (2 * (i : Int) + 1 ≥ (n : Int) ∨ 2 * (i : Int) + 1 < 0) := Or.inl (by omega)
  rw [ContainerHeap.downLoop]
  simp only [h1, if_true]

theorem downLoop_step (t : HeapType) (fuel : Nat) (xs : List Int) (i0 : Int) (i n : Nat)
    (hn : n ≤ xs.length) (h : 2 * i + 1 < n) :
    ContainerHeap.downLoop (fuel + 1) (intSlice.mk xs t) i0 (i : Int) (n : Int) =
      if t.less (xs.getD (pickChild t xs i n) 0) (xs.getD i 0) = true
      then ContainerHeap.downLoop fuel (intSlice.mk (swapAt xs i (pickChild t xs i n)) t) i0
        ((pickChild t xs i n : Nat) : Int) (n : Int)
      else (.ok (decide ((i : Int) > i0)), intSlice.mk xs t) := by
  have h1 : ¬ (2 * (i : Int) + 1 ≥ (n : Int) ∨ 2 * (i : Int) + 1 < 0) := by omega
  have e1 : 2 * (i : Int) + 1 = ((2 * i + 1 : Nat) : Int) := by push_cast; ring
  have e2 : 2 * (i : Int) + 1 + 1 = ((2 * i + 2 : Nat) : Int) := by push_cast; ring
  have hi : i < xs.length := by omega
  have hl1 : 2 * i + 1 < xs.length := by omega
  rw [ContainerHeap.downLoop]
  simp only [h1, if_false]
  by_cases h2 : 2 * i + 2 < n
  · have h2i : 2 * (i : Int) + 1 + 1 < (n : Int) := by omega
    have hl2 : 2 * i + 2 < xs.length := by omega
    simp only [h2i, if_true]
    rw [e2, e1, Less_ok t xs _ _ hl2 hl1]
    cases hr : t.less (xs.getD (2 * i + 2) 0) (xs.getD (2 * i + 1) 0) with
    | true =>
      have hp : pickChild t xs i n = 2 * i + 2 := by
        unfold pickChild; rw [if_pos ⟨h2, hr⟩]
      simp only [if_true, hp]
      rw [Less_ok t xs _ _ hl2 hi]
      cases t.less (xs.getD (2 * i + 2) 0) (xs.getD i 0) with
      | true => simp only [if_true]; rw [Swap_ok t xs _ _ hi hl2]
      | false => simp
    | false =>
      have hp : pickChild t xs i n = 2 * i + 1 := by
        unfold pickChild; rw [if_neg]; intro hh; rw [hr] at hh; exact Bool.noConfusion hh.2
      simp only [hp]
      rw [if_neg (by simp), Less_ok t xs _ _ hl1 hi]
      cases t.less (xs.getD (2 * i + 1) 0) (xs.getD i 0) with
      | true => simp only [if_true]; rw [Swap_ok t xs _ _ hi hl1]
      | false => simp
  · have h2i : ¬ 2 * (i : Int) + 1 + 1 < (n : Int) := by omega
    have hp : pickChild t xs i n = 2 * i + 1 := by
      unfold pickChild; rw [if_neg]; intro hh; exact h2 hh.1
    simp only [h2i, if_false, hp]
    rw [if_neg (by simp), e1, Less_ok t xs _ _ hl1 hi]
    cases t.less (xs.getD (2 * i + 1) 0) (xs.getD i 0) with
    | true => simp only [if_true]; rw [Swap_ok t xs _ _ hi hl1]
    | false => simp

end Heap

namespace Heap

theorem heapPrefix_of_downInv {t : HeapType} {xs : List Int} {i n : Nat}
    (inv : DownInv t xs i n)
    (hch : ∀ c, 0 < c → c < n → (c - 1) / 2 = i → t.rel (xs.getD i 0) (xs.getD c 0)) :
    HeapPrefix t xs n := by
  intro c hc0 hcn
  by_cases e : (c - 1) / 2 = i
  · rw [e]; exact hch c hc0 hcn e
  · exact inv.1 c hc0 hcn e

theorem downInv_step {t : HeapType} {xs : List Int} {i j n : Nat} (hn : n ≤ xs.length)
    (hj0 : 0 < j) (hjn : j < n) (hji : (j - 1) / 2 = i)
    (hmin : ∀ c, 0 < c → c < n → (c - 1) / 2 = i → t.rel (xs.getD j 0) (xs.getD c 0))
    (hless : t.less (xs.getD j 0) (xs.getD i 0) = true) (inv : DownInv t xs i n) :
    DownInv t (swapAt xs i j) j n := by
  obtain ⟨h1, h2⟩ := inv
  have hij : i < j := by omega
  have hil : i < xs.length := by omega
  have hjl : j < xs.length := by omega
  have hrel := rel_of_less hless
  refine ⟨?_, ?_⟩
  · intro c hc0 hcn hcp
    rw [getD_swapAt _ _ _ _ hil hjl, getD_swapAt _ _ _ _ hil hjl, if_neg hcp]
    by_cases e1 : (c - 1) / 2 = i
    · rw [if_pos e1]
      by_cases e2 : c = j
      · rw [if_pos e2]; exact hrel
      · have e3 : ¬ c = i := by omega
        rw [if_neg e2, if_neg e3]
        exact hmin c hc0 hcn e1
    · rw [if_neg e1]
      have e2 : ¬ c = j := by intro h; subst h; exact e1 hji
      rw [if_neg e2]
      by_cases e3 : c = i
      · rw [if_pos e3]
        subst e3
        exact h2 j hj0 hjn hji hc0
      · rw [if_neg e3]
        exact h1 c hc0 hcn e1
  · intro c hc0 hcn hcp _
    rw [getD_swapAt _ _ _ _ hil hjl, getD_swapAt _ _ _ _ hil hjl, hji]
    have e1 : ¬ i = j := by omega
    have e2 : ¬ c = j := by omega
    have e3 : ¬ c = i := by omega
    rw [if_neg e1, if_pos rfl, if_neg e2, if_neg e3]
    have := h1 c hc0 hcn (by omega)
    rw [hcp] at this
    exact this

theorem downLoop_spec (t : HeapType) (i0 : Int) (n : Nat) : ∀ (fuel : Nat) (xs : List Int) (i : Nat),
    n ≤ xs.length → n - i < fuel →
    ∃ ys b, ContainerHeap.downLoop fuel (intSlice.mk xs t) i0 (i : Int) (n : Int) =
        (.ok b, intSlice.mk ys t) ∧
      ys.Perm xs ∧ (∀ k, n ≤ k → ys.getD k 0 = xs.getD k 0) ∧
      (DownInv t xs i n → HeapPrefix t ys n) := by
  intro fuel
  induction fuel with
  | zero => intro xs i _ h; omega
  | succ fuel ih =>
    intro xs i hn hfuel
    by_cases hstop : n ≤ 2 * i + 1
    · refine ⟨xs, _, downLoop_stop t fuel xs i0 i n hstop, List.Perm.refl _, fun _ _ => rfl,
        fun inv => ?_⟩
      exact heapPrefix_of_downInv inv (fun c hc0 hcn e => by omega)
    · have hgo : 2 * i + 1 < n := by omega
      rw [downLoop_step t fuel xs i0 i n hn hgo]
      have hj : 0 < pickChild t xs i n ∧ pickChild t xs i n < n ∧
          (pickChild t xs i n - 1) / 2 = i := by
        rcases pickChild_cases t xs i n with h | ⟨h, h2⟩ <;> rw [h] <;> omega
      obtain ⟨hj0, hjn, hji⟩ := hj
      have hil : i < xs.length := by omega
      have hjl : pickChild t xs i n < xs.length := by omega
      cases hless : t.less (xs.getD (pickChild t xs i n) 0) (xs.getD i 0) with
      | false =>
        refine ⟨xs, _, if_neg (by simp), List.Perm.refl _, fun _ _ => rfl, fun inv => ?_⟩
        refine heapPrefix_of_downInv inv (fun c hc0 hcn e => ?_)
        exact rel_trans (rel_of_not_less hless) (pickChild_min t xs i n c hc0 hcn e)
      | true =>
        rw [if_pos rfl]
        obtain ⟨ys, b, e, p, hk, hh⟩ := ih (swapAt xs i (pickChild t xs i n)) (pickChild t xs i n)
          (by rw [length_swapAt]; exact hn) (by omega)
        refine ⟨ys, b, e, p.trans (swapAt_perm xs _ _ hil hjl), fun k hk2 => ?_, fun inv => ?_⟩
        · rw [hk k hk2, getD_swapAt _ _ _ _ hil hjl, if_neg (by omega), if_neg (by omega)]
        · exact hh (downInv_step hn hj0 hjn hji (pickChild_min t xs i n) hless inv)

end Heap

/-! ## `container/heap` `Push` and `Pop` on an `intSlice` -/

namespace Heap

theorem heapOrdered_iff (t : HeapType) (xs : List Int) :
    HeapOrdered t xs ↔ HeapPrefix t xs xs.length := by
  constructor
  · intro h c hc0 hcl
    exact h ((c - 1) / 2) (by omega) c hcl (by omega)
  · intro h i _ c hcl hc
    have e : (c - 1) / 2 = i := by omega
    have := h c (by omega) hcl
    rw [e] at this
    exact this

theorem upInv_append (t : HeapType) (xs : List Int) (x : Int) (h : HeapOrdered t xs) :
    UpInv t (xs ++ [x]) xs.length := by
  rw [heapOrdered_iff] at h
  refine ⟨?_, ?_⟩
  · intro c hc0 hcl hck
    simp only [List.length_append, List.length_singleton] at hcl
    have hc : c < xs.length := by omega
    rw [List.getD_append _ _ _ _ (by omega), List.getD_append _ _ _ _ hc]
    exact h c hc0 hc
  · intro c hc0 hcl hcp _
    simp only [List.length_append, List.length_singleton] at hcl
    omega

theorem take_append_last (zs : List Int) (m : Nat) (h : zs.length = m + 1) :
    zs.take m ++ [zs.getD m 0] = zs := by
  have h1 : zs.drop m = [zs.getD m 0] := by
    rw [List.drop_eq_getElem_cons (by omega), List.drop_eq_nil_of_le (by omega)]
    simp [List.getD_eq_getElem?_getD, h]
  rw [← h1, List.take_append_drop]

theorem Push_spec (t : HeapType) (xs : List Int) (x : Int) :
    ∃ ys, ContainerHeap.Push (intSlice.mk xs t) x = (.ok (), intSlice.mk ys t) ∧
      ys.Perm (xs ++ [x]) ∧ (HeapOrdered t xs → HeapOrdered t ys) := by
  have e1 : (intSlice.mk xs t).Push x = intSlice.mk (xs ++ [x]) t := rfl
  have e2 : (intSlice.mk (xs ++ [x]) t).Len - 1 = ((xs.length : Nat) : Int) := by
    simp [intSlice.Len]
  obtain ⟨ys, e, p, hh⟩ := upLoop_spec t (xs.length + 1) (xs ++ [x]) xs.length (by simp)
    (by omega)
  refine ⟨ys, ?_, p, fun ho => ?_⟩
  · simp only [ContainerHeap.Push, ContainerHeap.up, e1, e2, Int.natAbs_ofNat]
    exact e
  · rw [heapOrdered_iff]
    exact hh (upInv_append t xs x ho)

theorem downInv_swap_root (t : HeapType) (xs : List Int) (m : Nat) (hm : xs.length = m + 1)
    (h : HeapOrdered t xs) : DownInv t (swapAt xs 0 m) 0 m := by
  rw [heapOrdered_iff] at h
  refine ⟨?_, ?_⟩
  · intro c hc0 hcm hcp
    rw [getD_swapAt _ _ _ _ (by omega) (by omega), getD_swapAt _ _ _ _ (by omega) (by omega),
      if_neg (by omega), if_neg hcp, if_neg (by omega), if_neg (by omega)]
    exact h c hc0 (by omega)
  · intro c _ _ _ h0
    omega

theorem Pop_spec (t : HeapType) (xs : List Int) (hne : xs ≠ []) :
    ∃ ys, ContainerHeap.Pop (intSlice.mk xs t) = (.ok (xs.getD 0 0), intSlice.mk ys t) ∧
      (xs.getD 0 0 :: ys).Perm xs ∧ (HeapOrdered t xs → HeapOrdered t ys) := by
  obtain ⟨m, hm⟩ : ∃ m, xs.length = m + 1 :=
    ⟨xs.length - 1, by have := List.length_pos.mpr hne; omega⟩
  have e1 : (intSlice.mk xs t).Len - 1 = ((m : Nat) : Int) := by
    simp [intSlice.Len, hm]
  have e2 : (intSlice.mk xs t).Swap 0 ((m : Nat) : Int) = .ok (intSlice.mk (swapAt xs 0 m) t) := by
    have := Swap_ok t xs 0 m (by omega) (by omega)
    simpa using this
  obtain ⟨zs, b, e, p, hk, hh⟩ := downLoop_spec t 0 m (m + 1) (swapAt xs 0 m) 0
    (by rw [length_swapAt]; omega) (by omega)
  have e3 : ContainerHeap.down (intSlice.mk (swapAt xs 0 m) t) 0 ((m : Nat) : Int) =
      (.ok b, intSlice.mk zs t) := by
    have : (((m : Nat) : Int) - 0).toNat + 1 = m + 1 := by simp
    simp only [ContainerHeap.down, this]
    exact e
  have hzl : zs.length = m + 1 := by rw [p.length_eq, length_swapAt, hm]
  have hzm : zs.getD m 0 = xs.getD 0 0 := by
    rw [hk m (le_refl _), getD_swapAt _ _ _ _ (by omega) (by omega), if_pos rfl]
  have e4 : (intSlice.mk zs t).Pop = (.ok (xs.getD 0 0), intSlice.mk (zs.take m) t) := by
    have h1 : ((zs.length : Nat) : Int) - 1 = ((m : Nat) : Int) := by rw [hzl]; omega
    simp only [intSlice.Pop, h1, index_ok zs m (by omega), hzm, Int.toNat_ofNat]
  refine ⟨zs.take m, ?_, ?_, fun ho => ?_⟩
  · simp only [ContainerHeap.Pop, e1, e2, e3, e4]
  · have h1 := take_append_last zs m hzl
    rw [hzm] at h1
    have h2 : (xs.getD 0 0 :: zs.take m).Perm zs := by
      have := (List.perm_append_singleton (xs.getD 0 0) (zs.take m)).symm
      rw [h1] at this
      exact this
    exact h2.trans (p.trans (swapAt_perm xs 0 m (by omega) (by omega)))
  · rw [heapOrdered_iff]
    have hp := hh (downInv_swap_root t xs m hm ho)
    intro c hc0 hcl
    have hcm : c < m := by simpa [hzl] using hcl
    have g : ∀ k, k < m → (zs.take m).getD k 0 = zs.getD k 0 := by
      intro k hk
      simp [List.getD_eq_getElem?_getD, List.getElem?_take_of_lt hk]
    rw [g c hcm, g _ (by omega)]
    exact hp c hc0 hcm

end Heap

/-! ## The exported methods -/

namespace Heap

theorem NewHeapWithType_eq (t : HeapType) : NewHeapWithType t = IntHeap.mk (intSlice.mk [] t) := by
  cases t <;> rfl

theorem Init_fresh (t : HeapType) :
    ContainerHeap.Init (intSlice.mk [] t) = (.ok (), intSlice.mk [] t) := by
  cases t <;> rfl

theorem IntHeap_Push_spec (t : HeapType) (xs : List Int) (x : Int) :
    ∃ ys, (IntHeap.mk (intSlice.mk xs t)).Push x = (.ok (), IntHeap.mk (intSlice.mk ys t)) ∧
      ys.Perm (xs ++ [x]) ∧ (HeapOrdered t xs → HeapOrdered t ys) := by
  obtain ⟨ys, e, p, hh⟩ := Push_spec t xs x
  exact ⟨ys, by simp [IntHeap.Push, e], p, hh⟩

theorem IntHeap_Pop_spec (t : HeapType) (xs : List Int) (hne : xs ≠ []) :
    ∃ ys, (IntHeap.mk (intSlice.mk xs t)).Pop =
        (.ok (xs.getD 0 0), IntHeap.mk (intSlice.mk ys t)) ∧
      (xs.getD 0 0 :: ys).Perm xs ∧ (HeapOrdered t xs → HeapOrdered t ys) := by
  obtain ⟨ys, e, p, hh⟩ := Pop_spec t xs hne
  exact ⟨ys, by simp [IntHeap.Pop, e], p, hh⟩

theorem IntHeap_Pop_empty (t : HeapType) :
    (IntHeap.mk (intSlice.mk [] t)).Pop =
      (.error Panic.indexOutOfRange, IntHeap.mk (intSlice.mk [] t)) := by
  cases t <;> rfl

theorem Len_eq_zero_iff (h : IntHeap) : h.Len = 0 ↔ h.items.items = [] := by
  simp [IntHeap.Len]

theorem root_rel {t : HeapType} {xs : List Int} (h : HeapOrdered t xs) :
    ∀ k, k < xs.length → t.rel (xs.getD 0 0) (xs.getD k 0) := by
  rw [heapOrdered_iff] at h
  intro k
  induction k using Nat.strong_induction_on with
  | _ k ih =>
    intro hk
    by_cases h0 : k = 0
    · subst h0; exact rel_refl _ _
    · exact rel_trans (ih ((k - 1) / 2) (by omega) (by omega)) (h k (by omega) hk)

theorem root_rel_mem {t : HeapType} {xs : List Int} (h : HeapOrdered t xs) (y : Int)
    (hy : y ∈ xs) : t.rel (xs.getD 0 0) y := by
  obtain ⟨k, hk, e⟩ := List.getElem_of_mem hy
  have := root_rel h k hk
  rw [List.getD_eq_getElem?_getD xs k, List.getElem?_eq_getElem hk] at this
  simpa [e] using this

theorem root_mem (xs : List Int) (hne : xs ≠ []) : xs.getD 0 0 ∈ xs := by
  cases xs with
  | nil => exact absurd rfl hne
  | cons a as => simp

theorem reachable_ordered {h : IntHeap} (hr : Reachable h) :
    HeapOrdered h.items.heapType h.items.items := by
  induction hr with
  | fresh t =>
    rw [NewHeapWithType_eq]
    intro i hi
    simp at hi
  | @push h x _ ih =>
    obtain ⟨⟨xs, t⟩⟩ := h
    obtain ⟨ys, e, _, hh⟩ := IntHeap_Push_spec t xs x
    rw [e]
    exact hh ih
  | @pop h _ hne ih =>
    obtain ⟨⟨xs, t⟩⟩ := h
    have hx : xs ≠ [] := fun hx => hne ((Len_eq_zero_iff _).mpr hx)
    obtain ⟨ys, e, _, hh⟩ := IntHeap_Pop_spec t xs hx
    rw [e]
    exact hh ih

theorem pushAll_spec (t : HeapType) : ∀ (S xs : List Int), HeapOrdered t xs →
    ∃ ys, pushAll (IntHeap.mk (intSlice.mk xs t)) S = (.ok (), IntHeap.mk (intSlice.mk ys t)) ∧
      ys.Perm (xs ++ S) ∧ HeapOrdered t ys := by
  intro S
  induction S with
  | nil => intro xs ho; exact ⟨xs, rfl, by simp, ho⟩
  | cons x S ih =>
    intro xs ho
    obtain ⟨ys, e, p, hh⟩ := IntHeap_Push_spec t xs x
    obtain ⟨zs, e2, p2, ho2⟩ := ih ys (hh ho)
    refine ⟨zs, ?_, ?_, ho2⟩
    · simp only [pushAll, e]
      exact e2
    · refine p2.trans ?_
      have := List.Perm.append_right S p
      simpa using this

theorem popN_spec (t : HeapType) : ∀ (n : Nat) (xs : List Int), xs.length = n →
    HeapOrdered t xs →
    ∃ out, popN (IntHeap.mk (intSlice.mk xs t)) n = (.ok out, IntHeap.mk (intSlice.mk [] t)) ∧
      out.Perm xs ∧ out.Sorted t.rel := by
  intro n
  induction n with
  | zero =>
    intro xs hl _
    have : xs = [] := List.length_eq_zero.mp hl
    subst this
    exact ⟨[], rfl, List.Perm.refl _, List.sorted_nil⟩
  | succ n ih =>
    intro xs hl ho
    have hx : xs ≠ [] := by intro h; subst h; simp at hl
    obtain ⟨ys, e, p, hh⟩ := IntHeap_Pop_spec t xs hx
    have hyl : ys.length = n := by
      have := p.length_eq
      simp only [List.length_cons] at this
      omega
    obtain ⟨out, e2, p2, s2⟩ := ih ys hyl (hh ho)
    refine ⟨xs.getD 0 0 :: out, ?_, ?_, ?_⟩
    · simp only [popN, e, e2]
    · exact (List.Perm.cons _ p2).trans p
    · refine List.sorted_cons.mpr ⟨fun b hb => ?_, s2⟩
      have hb2 : b ∈ xs := p.subset (List.mem_cons_of_mem _ (p2.subset hb))
      exact root_rel_mem ho b hb2

end Heap

/-! ## Verified claims -/

namespace Heap

theorem extraction_of_fresh (t : HeapType) (S : List Int) :
    ∃ h out, pushAll (NewHeapWithType t) S = (.ok (), h) ∧
      popN h S.length = (.ok out, IntHeap.mk (intSlice.mk [] t)) ∧
      out.Perm S ∧ out.Sorted t.rel := by
  have h0 : HeapOrdered t [] := by intro i hi; simp at hi
  obtain ⟨ys, e, p, ho⟩ := pushAll_spec t S [] h0
  have hl : ys.length = S.length := by simpa using p.length_eq
  obtain ⟨out, e2, p2, s2⟩ := popN_spec t S.length ys hl ho
  refine ⟨_, out, ?_, e2, p2.trans (by simpa using p), s2⟩
  rw [NewHeapWithType_eq]
  exact e

theorem eq_insertionSort_le {out S : List Int} (p : out.Perm S) (s : out.Sorted (· ≤ ·)) :
    out = S.insertionSort (· ≤ ·) :=
  List.eq_of_perm_of_sorted (p.trans (List.perm_insertionSort _ S).symm) s
    (List.sorted_insertionSort _ S)

theorem eq_insertionSort_ge {out S : List Int} (p : out.Perm S) (s : out.Sorted (· ≥ ·)) :
    out = S.insertionSort (· ≥ ·) :=
  List.eq_of_perm_of_sorted (p.trans (List.perm_insertionSort _ S).symm) s
    (List.sorted_insertionSort _ S)

/-- C1, sorted-extraction law: for every list `S`, pushing its elements in
order into a fresh heap succeeds, and `len(S)` calls of `Pop` then return, in
order, `S` sorted ascending for `NewHeap()` and `S` sorted descending for
`NewMaxHeap()`; the sorted list has every value with the multiplicity it has in
`S`, and the heap is empty afterwards. -/
theorem C1_sorted_extraction (S : List Int) :
    ((pushAll NewHeap S).1 = .ok () ∧
      (popN (pushAll NewHeap S).2 S.length).1 = .ok (S.insertionSort (· ≤ ·)) ∧
      (popN (pushAll NewHeap S).2 S.length).2.Empty = true) ∧
    ((pushAll NewMaxHeap S).1 = .ok () ∧
      (popN (pushAll NewMaxHeap S).2 S.length).1 = .ok (S.insertionSort (· ≥ ·)) ∧
      (popN (pushAll NewMaxHeap S).2 S.length).2.Empty = true) ∧
    (S.insertionSort (· ≤ ·)).Sorted (· ≤ ·) ∧
    (S.insertionSort (· ≥ ·)).Sorted (· ≥ ·) ∧
    ∀ a, (S.insertionSort (· ≤ ·)).count a = S.count a ∧
      (S.insertionSort (· ≥ ·)).count a = S.count a := by
  refine ⟨?_, ?_, List.sorted_insertionSort _ S, List.sorted_insertionSort _ S, fun a =>
    ⟨(List.perm_insertionSort _ S).count_eq a, (List.perm_insertionSort _ S).count_eq a⟩⟩
  · obtain ⟨h, out, e1, e2, p, s⟩ := extraction_of_fresh HeapType.MinHeap S
    have hs : out.Sorted (· ≤ ·) := s
    have e1b : pushAll NewHeap S = (.ok (), h) := e1
    rw [e1b, e2, eq_insertionSort_le p hs]
    exact ⟨rfl, rfl, rfl⟩
  · obtain ⟨h, out, e1, e2, p, s⟩ := extraction_of_fresh HeapType.MaxHeap S
    have hs : out.Sorted (· ≥ ·) := s
    have e1b : pushAll NewMaxHeap S = (.ok (), h) := e1
    rw [e1b, e2, eq_insertionSort_ge p hs]
    exact ⟨rfl, rfl, rfl⟩

/-- C2, heap-order invariant: in every state reachable from a freshly
constructed heap by `Push` calls and `Pop` calls on a non-empty heap, for every
index `i` and child index `c ∈ {2i+1, 2i+2}` with `c < Len()`,
`items[i] ≤ items[c]` in a min-heap and `items[i] ≥ items[c]` in a max-heap. -/
theorem C2_heap_order_invariant (h : IntHeap) (hr : Reachable h) (i c : Nat)
    (hc : c = 2 * i + 1 ∨ c = 2 * i + 2) (hlen : (c : Int) < h.Len) :
    (h.GetHeapType = HeapType.MinHeap → h.items.items.getD i 0 ≤ h.items.items.getD c 0) ∧
    (h.GetHeapType = HeapType.MaxHeap → h.items.items.getD i 0 ≥ h.items.items.getD c 0) := by
  have ho := reachable_ordered hr
  have hcl : c < h.items.items.length := by
    simp only [IntHeap.Len] at hlen
    omega
  have := ho i (by omega) c hcl hc
  constructor
  · intro ht
    simp only [IntHeap.GetHeapType] at ht
    rw [ht] at this
    exact this
  · intro ht
    simp only [IntHeap.GetHeapType] at ht
    rw [ht] at this
    exact this

/-- Witness for C2: the min-heap reached by `Push(5); Push(2)`, at the root and
its left child. -/
theorem C2_heap_order_invariant_witness :
    Reachable ((NewHeap.Push 5).2.Push 2).2 ∧
    ((1 : Nat) = 2 * 0 + 1 ∨ (1 : Nat) = 2 * 0 + 2) ∧
    (((1 : Nat) : Int) < ((NewHeap.Push 5).2.Push 2).2.Len) ∧
    ((((NewHeap.Push 5).2.Push 2).2.GetHeapType = HeapType.MinHeap →
        ((NewHeap.Push 5).2.Push 2).2.items.items.getD 0 0 ≤
          ((NewHeap.Push 5).2.Push 2).2.items.items.getD 1 0) ∧
      (((NewHeap.Push 5).2.Push 2).2.GetHeapType = HeapType.MaxHeap →
        ((NewHeap.Push 5).2.Push 2).2.items.items.getD 0 0 ≥
          ((NewHeap.Push 5).2.Push 2).2.items.items.getD 1 0)) :=
  ⟨Reachable.push 2 (Reachable.push 5 (Reachable.fresh HeapType.MinHeap)), by decide, by decide,
    C2_heap_order_invariant _
      (Reachable.push 2 (Reachable.push 5 (Reachable.fresh HeapType.MinHeap))) 0 1
      (by decide) (by decide)⟩

end Heap

namespace Heap

theorem Peek_nonempty (t : HeapType) (xs : List Int) (hne : xs ≠ []) :
    (IntHeap.mk (intSlice.mk xs t)).Peek = .ok (xs.getD 0 0) := by
  have hl : 0 < xs.length := List.length_pos.mpr hne
  have h1 : ¬ (IntHeap.mk (intSlice.mk xs t)).Len = 0 := by
    simp only [IntHeap.Len]; omega
  have h2 := index_ok xs 0 hl
  simp only [IntHeap.Peek, h1, if_false]
  simpa using h2

/-- C3: `Pop` on a non-empty heap whose elements satisfy the heap-order
invariant returns a value `v` that is an element of the heap, is `≤` every
element in a min-heap and `≥` every element in a max-heap, and the multiset of
elements after the call is the multiset before with one occurrence of `v`
removed. -/
theorem C3_pop_returns_extreme (h : IntHeap) (hne : h.Len ≠ 0)
    (hord : HeapOrdered h.GetHeapType h.items.items) :
    ∃ v, h.Pop.1 = .ok v ∧ v ∈ h.items.items ∧
      (h.GetHeapType = HeapType.MinHeap → ∀ y ∈ h.items.items, v ≤ y) ∧
      (h.GetHeapType = HeapType.MaxHeap → ∀ y ∈ h.items.items, v ≥ y) ∧
      (h.Pop.2.items.items : Multiset Int) = (h.items.items : Multiset Int).erase v := by
  obtain ⟨⟨xs, t⟩⟩ := h
  have hx : xs ≠ [] := fun hx => hne ((Len_eq_zero_iff _).mpr hx)
  obtain ⟨ys, e, p, _⟩ := IntHeap_Pop_spec t xs hx
  have hord2 : HeapOrdered t xs := hord
  refine ⟨xs.getD 0 0, by rw [e], root_mem xs hx, ?_, ?_, ?_⟩
  · intro ht y hy
    have ht2 : t = HeapType.MinHeap := ht
    subst ht2
    exact root_rel_mem hord2 y hy
  · intro ht y hy
    have ht2 : t = HeapType.MaxHeap := ht
    subst ht2
    exact root_rel_mem hord2 y hy
  · rw [e]
    simp only [Multiset.coe_erase, Multiset.coe_eq_coe]
    have h1 := p.erase (xs.getD 0 0)
    rw [List.erase_cons_head] at h1
    exact h1

/-- Witness for C3: the min-heap with elements `[1, 3, 2]`. -/
theorem C3_pop_returns_extreme_witness :
    (IntHeap.mk (intSlice.mk [1, 3, 2] HeapType.MinHeap)).Len ≠ 0 ∧
    HeapOrdered (IntHeap.mk (intSlice.mk [1, 3, 2] HeapType.MinHeap)).GetHeapType
      (IntHeap.mk (intSlice.mk [1, 3, 2] HeapType.MinHeap)).items.items ∧
    ∃ v, (IntHeap.mk (intSlice.mk [1, 3, 2] HeapType.MinHeap)).Pop.1 = .ok v ∧
      v ∈ (IntHeap.mk (intSlice.mk [1, 3, 2] HeapType.MinHeap)).items.items ∧
      ((IntHeap.mk (intSlice.mk [1, 3, 2] HeapType.MinHeap)).GetHeapType = HeapType.MinHeap →
        ∀ y ∈ (IntHeap.mk (intSlice.mk [1, 3, 2] HeapType.MinHeap)).items.items, v ≤ y) ∧
      ((IntHeap.mk (intSlice.mk [1, 3, 2] HeapType.MinHeap)).GetHeapType = HeapType.MaxHeap →
        ∀ y ∈ (IntHeap.mk (intSlice.mk [1, 3, 2] HeapType.MinHeap)).items.items, v ≥ y) ∧
      ((IntHeap.mk (intSlice.mk [1, 3, 2] HeapType.MinHeap)).Pop.2.items.items : Multiset Int) =
        ((IntHeap.mk (intSlice.mk [1, 3, 2] HeapType.MinHeap)).items.items : Multiset Int).erase v :=
  ⟨by decide, by decide,
    C3_pop_returns_extreme (IntHeap.mk (intSlice.mk [1, 3, 2] HeapType.MinHeap)) (by decide)
      (by decide)⟩

/-- C4, Peek/Pop agreement: on a non-empty heap of either direction, `Peek`
and a `Pop` made on the same state both return, and return the same value. -/
theorem C4_peek_pop_agree (h : IntHeap) (hne : h.Len ≠ 0) :
    ∃ v, h.Peek = .ok v ∧ h.Pop.1 = .ok v := by
  obtain ⟨⟨xs, t⟩⟩ := h
  have hx : xs ≠ [] := fun hx => hne ((Len_eq_zero_iff _).mpr hx)
  obtain ⟨ys, e, _, _⟩ := IntHeap_Pop_spec t xs hx
  exact ⟨xs.getD 0 0, Peek_nonempty t xs hx, by rw [e]⟩

/-- Witness for C4: the max-heap with elements `[7, 7, 4]`. -/
theorem C4_peek_pop_agree_witness :
    (IntHeap.mk (intSlice.mk [7, 7, 4] HeapType.MaxHeap)).Len ≠ 0 ∧
    ∃ v, (IntHeap.mk (intSlice.mk [7, 7, 4] HeapType.MaxHeap)).Peek = .ok v ∧
      (IntHeap.mk (intSlice.mk [7, 7, 4] HeapType.MaxHeap)).Pop.1 = .ok v :=
  ⟨by decide, C4_peek_pop_agree (IntHeap.mk (intSlice.mk [7, 7, 4] HeapType.MaxHeap)) (by decide)⟩

/-- C5: on every non-empty heap reachable from a fresh heap by `Push` and
`Pop`, `Peek` returns an element of the heap that is `≤` every element
(the minimum) in a min-heap and `≥` every element (the maximum) in a
max-heap. -/
theorem C5_peek_is_extreme (h : IntHeap) (hr : Reachable h) (hne : h.Len ≠ 0) :
    ∃ v, h.Peek = .ok v ∧ v ∈ h.items.items ∧
      (h.GetHeapType = HeapType.MinHeap → ∀ y ∈ h.items.items, v ≤ y) ∧
      (h.GetHeapType = HeapType.MaxHeap → ∀ y ∈ h.items.items, v ≥ y) := by
  have ho := reachable_ordered hr
  obtain ⟨⟨xs, t⟩⟩ := h
  have hx : xs ≠ [] := fun hx => hne ((Len_eq_zero_iff _).mpr hx)
  have hord2 : HeapOrdered t xs := ho
  refine ⟨xs.getD 0 0, Peek_nonempty t xs hx, root_mem xs hx, ?_, ?_⟩
  · intro ht y hy
    have ht2 : t = HeapType.MinHeap := ht
    subst ht2
    exact root_rel_mem hord2 y hy
  · intro ht y hy
    have ht2 : t = HeapType.MaxHeap := ht
    subst ht2
    exact root_rel_mem hord2 y hy

/-- Witness for C5: the max-heap reached by `Push(2); Push(9)`. -/
theorem C5_peek_is_extreme_witness :
    Reachable ((NewMaxHeap.Push 2).2.Push 9).2 ∧ ((NewMaxHeap.Push 2).2.Push 9).2.Len ≠ 0 ∧
    ∃ v, ((NewMaxHeap.Push 2).2.Push 9).2.Peek = .ok v ∧
      v ∈ ((NewMaxHeap.Push 2).2.Push 9).2.items.items ∧
      (((NewMaxHeap.Push 2).2.Push 9).2.GetHeapType = HeapType.MinHeap →
        ∀ y ∈ ((NewMaxHeap.Push 2).2.Push 9).2.items.items, v ≤ y) ∧
      (((NewMaxHeap.Push 2).2.Push 9).2.GetHeapType = HeapType.MaxHeap →
        ∀ y ∈ ((NewMaxHeap.Push 2).2.Push 9).2.items.items, v ≥ y) :=
  ⟨Reachable.push 9 (Reachable.push 2 (Reachable.fresh HeapType.MaxHeap)), by decide,
    C5_peek_is_extreme _ (Reachable.push 9 (Reachable.push 2 (Reachable.fresh HeapType.MaxHeap)))
      (by decide)⟩

/-- C6: `Pop` on an empty heap of either direction fails — the call panics
with an index-out-of-range run-time error and returns no integer — and leaves
the heap unchanged, with size 0. -/
theorem C6_pop_empty_fails (h : IntHeap) (he : h.Len = 0) :
    h.Pop.1 = .error Panic.indexOutOfRange ∧ (∀ v, h.Pop.1 ≠ .ok v) ∧
      h.Pop.2 = h ∧ h.Pop.2.Size = 0 := by
  obtain ⟨⟨xs, t⟩⟩ := h
  have hx : xs = [] := (Len_eq_zero_iff _).mp he
  subst hx
  rw [IntHeap_Pop_empty]
  refine ⟨rfl, fun v hv => ?_, rfl, rfl⟩
  cases hv

/-- Witness for C6: the fresh max-heap. -/
theorem C6_pop_empty_fails_witness :
    NewMaxHeap.Len = 0 ∧ NewMaxHeap.Pop.1 = .error Panic.indexOutOfRange ∧
      (∀ v, NewMaxHeap.Pop.1 ≠ .ok v) ∧ NewMaxHeap.Pop.2 = NewMaxHeap ∧
      NewMaxHeap.Pop.2.Size = 0 :=
  ⟨by decide, C6_pop_empty_fails NewMaxHeap (by decide)⟩

/-- Counterexample to C7: `Pop` on the fresh (empty) min-heap does not return
`0`; the call panics. -/
theorem C7_counterexample :
    NewHeap.Len = 0 ∧ NewHeap.Pop.1 ≠ .ok 0 ∧ NewHeap.Pop.1 = .error Panic.indexOutOfRange := by
  decide

/-- C7 as amended: `Pop` on an empty heap returns no value, neither `0` nor any
other, but panics with an index-out-of-range run-time error, raised by
`Swap(0, -1)` before anything is stored. -/
theorem C7_pop_empty_panics (h : IntHeap) (he : h.Len = 0) :
    h.items.Swap 0 (h.items.Len - 1) = .error Panic.indexOutOfRange ∧
      h.Pop = (.error Panic.indexOutOfRange, h) ∧ h.Pop.1 ≠ .ok 0 := by
  obtain ⟨⟨xs, t⟩⟩ := h
  have hx : xs = [] := (Len_eq_zero_iff _).mp he
  subst hx
  rw [IntHeap_Pop_empty]
  refine ⟨?_, rfl, fun hv => ?_⟩
  · cases t <;> rfl
  · cases hv

/-- Witness for the amended C7: the fresh min-heap. -/
theorem C7_pop_empty_panics_witness :
    NewHeap.Len = 0 ∧ NewHeap.items.Swap 0 (NewHeap.items.Len - 1) = .error Panic.indexOutOfRange ∧
      NewHeap.Pop = (.error Panic.indexOutOfRange, NewHeap) ∧ NewHeap.Pop.1 ≠ .ok 0 :=
  ⟨by decide, C7_pop_empty_panics NewHeap (by decide)⟩

/-- C8: `Peek` on an empty heap returns `0` and does not fail, whatever the
direction; in particular on a fresh min-heap and on a fresh max-heap. -/
theorem C8_peek_empty (h : IntHeap) (he : h.Len = 0) :
    h.Peek = .ok 0 ∧ NewHeap.Peek = .ok 0 ∧ NewMaxHeap.Peek = .ok 0 := by
  refine ⟨?_, by decide, by decide⟩
  simp only [IntHeap.Peek, he, if_true]

/-- Witness for C8: the empty max-heap. -/
theorem C8_peek_empty_witness :
    (IntHeap.mk (intSlice.mk [] HeapType.MaxHeap)).Len = 0 ∧
    (IntHeap.mk (intSlice.mk [] HeapType.MaxHeap)).Peek = .ok 0 ∧ NewHeap.Peek = .ok 0 ∧
      NewMaxHeap.Peek = .ok 0 :=
  ⟨by decide, C8_peek_empty (IntHeap.mk (intSlice.mk [] HeapType.MaxHeap)) (by decide)⟩

end Heap

namespace Heap

theorem Size_Push (h : IntHeap) (x : Int) :
    (h.Push x).1 = .ok () ∧ (h.Push x).2.Size = h.Size + 1 := by
  obtain ⟨⟨xs, t⟩⟩ := h
  obtain ⟨ys, e, p, _⟩ := IntHeap_Push_spec t xs x
  rw [e]
  refine ⟨rfl, ?_⟩
  have := p.length_eq
  simp only [List.length_append, List.length_singleton] at this
  simp only [IntHeap.Size, IntHeap.Len, this]
  omega

theorem Size_Pop (h : IntHeap) (hne : h.Len ≠ 0) :
    (∃ v, h.Pop.1 = .ok v) ∧ h.Pop.2.Size = h.Size - 1 := by
  obtain ⟨⟨xs, t⟩⟩ := h
  have hx : xs ≠ [] := fun hx => hne ((Len_eq_zero_iff _).mpr hx)
  obtain ⟨ys, e, p, _⟩ := IntHeap_Pop_spec t xs hx
  rw [e]
  refine ⟨⟨_, rfl⟩, ?_⟩
  have := p.length_eq
  simp only [List.length_cons] at this
  simp only [IntHeap.Size, IntHeap.Len, ← this]
  omega

theorem Pop_empty_state (h : IntHeap) (he : h.Len = 0) : h.Pop.2 = h := by
  obtain ⟨⟨xs, t⟩⟩ := h
  have hx : xs = [] := (Len_eq_zero_iff _).mp he
  subst hx
  rw [IntHeap_Pop_empty]

theorem Size_run (ops : List Op) : ∀ h : IntHeap,
    (h.run ops).Size = h.Size + (pushCount ops : Int) - (popCount h ops : Int) := by
  induction ops with
  | nil => intro h; simp [IntHeap.run, pushCount, popCount]
  | cons op ops ih =>
    intro h
    cases op with
    | push x =>
      simp only [IntHeap.run, pushCount, popCount, ih, IntHeap.apply, (Size_Push h x).2]
      push_cast
      omega
    | pop =>
      simp only [IntHeap.run, pushCount, popCount, ih, IntHeap.apply]
      by_cases he : h.Len = 0
      · rw [Pop_empty_state h he]
        simp only [he, if_true]
        push_cast
        omega
      · rw [(Size_Pop h he).2]
        simp only [he, if_false]
        push_cast
        omega

/-- C9, size consistency: after any sequence of `Push` and `Pop` calls made on
a fresh heap, `Size()` is the number of `Push` calls minus the number of `Pop`
calls that found the heap non-empty; every `Push` returns and takes `Size` from
`N` to `N+1`, and every `Pop` on a non-empty heap returns and takes it from `N`
to `N-1`. -/
theorem C9_size_consistency (t : HeapType) (ops : List Op) :
    ((NewHeapWithType t).run ops).Size =
        (pushCount ops : Int) - (popCount (NewHeapWithType t) ops : Int) ∧
    (∀ (h : IntHeap) (x : Int), (h.Push x).1 = .ok () ∧ (h.Push x).2.Size = h.Size + 1) ∧
    (∀ h : IntHeap, h.Len ≠ 0 → (∃ v, h.Pop.1 = .ok v) ∧ h.Pop.2.Size = h.Size - 1) := by
  refine ⟨?_, Size_Push, Size_Pop⟩
  rw [Size_run]
  have : (NewHeapWithType t).Size = 0 := by cases t <;> rfl
  rw [this]
  omega

/-- C10: for every heap and every integer `x`, `Push(x)` returns and leaves an
element sequence that is a permutation of the previous one with `x` appended:
the length grows by one, `x` gains one occurrence and the multiplicity of
every other value is unchanged. -/
theorem C10_push_permutation (h : IntHeap) (x : Int) :
    (h.Push x).1 = .ok () ∧
    (h.Push x).2.items.items.Perm (h.items.items ++ [x]) ∧
    (h.Push x).2.items.items.length = h.items.items.length + 1 ∧
    (h.Push x).2.Len = h.Len + 1 ∧
    ∀ y, (h.Push x).2.items.items.count y = h.items.items.count y + (if y = x then 1 else 0) := by
  obtain ⟨⟨xs, t⟩⟩ := h
  obtain ⟨ys, e, p, _⟩ := IntHeap_Push_spec t xs x
  rw [e]
  have hl := p.length_eq
  simp only [List.length_append, List.length_singleton] at hl
  refine ⟨rfl, p, hl, ?_, fun y => ?_⟩
  · simp only [IntHeap.Len, hl]
    omega
  · have hc := p.count_eq y
    simp only [List.count_append] at hc
    show ys.count y = xs.count y + _
    rw [hc]
    by_cases hy : y = x
    · subst hy; simp
    · have hy2 : ¬ x = y := fun h => hy h.symm
      simp [hy, hy2, List.count_cons]

end Heap

/-! ## Draining, construction, direction, emptiness -/

namespace Heap

theorem drainLoop_spec (t : HeapType) : ∀ (fuel : Nat) (xs : List Int), xs.length < fuel →
    HeapOrdered t xs →
    ∃ out, drainLoop fuel (IntHeap.mk (intSlice.mk xs t)) =
        (.ok out, IntHeap.mk (intSlice.mk [] t)) ∧
      out.Perm xs ∧ out.Sorted t.rel := by
  intro fuel
  induction fuel with
  | zero => intro xs h; omega
  | succ fuel ih =>
    intro xs hl ho
    by_cases hx : xs = []
    · subst hx
      exact ⟨[], rfl, List.Perm.refl _, List.sorted_nil⟩
    · have hemp : ¬ (IntHeap.mk (intSlice.mk xs t)).Empty = true := by
        have : 0 < xs.length := List.length_pos.mpr hx
        simp only [IntHeap.Empty, IntHeap.Len, decide_eq_true_eq]
        omega
      obtain ⟨ys, e, p, hh⟩ := IntHeap_Pop_spec t xs hx
      have hyl : ys.length < fuel := by
        have := p.length_eq
        simp only [List.length_cons] at this
        omega
      obtain ⟨out, e2, p2, s2⟩ := ih ys hyl (hh ho)
      refine ⟨xs.getD 0 0 :: out, ?_, (List.Perm.cons _ p2).trans p, ?_⟩
      · rw [drainLoop]
        rw [if_neg hemp]
        simp only [e, e2]
      · refine List.sorted_cons.mpr ⟨fun b hb => ?_, s2⟩
        exact root_rel_mem ho b (p.subset (List.mem_cons_of_mem _ (p2.subset hb)))

/-- C11, draining order from any state: on every heap reachable from a fresh
heap by `Push` and `Pop`, calling `Pop` until `Empty()` holds returns every
time, leaves the heap empty, and yields a non-decreasing sequence of values for
a min-heap and a non-increasing one for a max-heap. -/
theorem C11_drain_sorted (h : IntHeap) (hr : Reachable h) :
    ∃ out, (drain h).1 = .ok out ∧ (drain h).2.Empty = true ∧
      out.length = h.items.items.length ∧
      (h.GetHeapType = HeapType.MinHeap → out.Sorted (· ≤ ·)) ∧
      (h.GetHeapType = HeapType.MaxHeap → out.Sorted (· ≥ ·)) := by
  have ho := reachable_ordered hr
  obtain ⟨⟨xs, t⟩⟩ := h
  have hf : (IntHeap.mk (intSlice.mk xs t)).Len.toNat + 1 = xs.length + 1 := by
    simp [IntHeap.Len]
  obtain ⟨out, e, p, s⟩ := drainLoop_spec t (xs.length + 1) xs (by omega) ho
  refine ⟨out, ?_, ?_, p.length_eq, ?_, ?_⟩
  · simp only [drain, hf, e]
  · simp only [drain, hf, e]
    rfl
  · intro ht
    have ht2 : t = HeapType.MinHeap := ht
    subst ht2
    exact s
  · intro ht
    have ht2 : t = HeapType.MaxHeap := ht
    subst ht2
    exact s

/-- Witness for C11: the min-heap reached by `Push(4); Push(1); Push(3)`. -/
theorem C11_drain_sorted_witness :
    Reachable (((NewHeap.Push 4).2.Push 1).2.Push 3).2 ∧
    ∃ out, (drain (((NewHeap.Push 4).2.Push 1).2.Push 3).2).1 = .ok out ∧
      (drain (((NewHeap.Push 4).2.Push 1).2.Push 3).2).2.Empty = true ∧
      out.length = (((NewHeap.Push 4).2.Push 1).2.Push 3).2.items.items.length ∧
      ((((NewHeap.Push 4).2.Push 1).2.Push 3).2.GetHeapType = HeapType.MinHeap →
        out.Sorted (· ≤ ·)) ∧
      ((((NewHeap.Push 4).2.Push 1).2.Push 3).2.GetHeapType = HeapType.MaxHeap →
        out.Sorted (· ≥ ·)) :=
  ⟨Reachable.push 3 (Reachable.push 1 (Reachable.push 4 (Reachable.fresh HeapType.MinHeap))),
    C11_drain_sorted _
      (Reachable.push 3 (Reachable.push 1 (Reachable.push 4 (Reachable.fresh HeapType.MinHeap))))⟩

/-- C12: a freshly constructed heap is empty for every direction: the results
of `NewHeap()`, `NewMaxHeap()` and `NewHeapWithType(t)` have `Len() == 0`,
`Size() == 0` and `Empty() == true`; the `heap.Init` call of the constructor
returns. -/
theorem C12_fresh_heap_empty (t : HeapType) :
    (NewHeap.Len = 0 ∧ NewHeap.Size = 0 ∧ NewHeap.Empty = true) ∧
    (NewMaxHeap.Len = 0 ∧ NewMaxHeap.Size = 0 ∧ NewMaxHeap.Empty = true) ∧
    ((NewHeapWithType t).Len = 0 ∧ (NewHeapWithType t).Size = 0 ∧
      (NewHeapWithType t).Empty = true) ∧
    (ContainerHeap.Init (intSlice.mk [] t)).1 = .ok () := by
  refine ⟨by decide, by decide, ?_, ?_⟩
  · cases t <;> decide
  · cases t <;> rfl

theorem apply_heapType (h : IntHeap) (op : Op) :
    (h.apply op).items.heapType = h.items.heapType := by
  obtain ⟨⟨xs, t⟩⟩ := h
  cases op with
  | push x =>
    obtain ⟨ys, e, _, _⟩ := IntHeap_Push_spec t xs x
    simp only [IntHeap.apply, e]
  | pop =>
    by_cases hx : xs = []
    · subst hx
      simp only [IntHeap.apply, IntHeap_Pop_empty]
    · obtain ⟨ys, e, _, _⟩ := IntHeap_Pop_spec t xs hx
      simp only [IntHeap.apply, e]

theorem run_heapType (ops : List Op) : ∀ h : IntHeap,
    (h.run ops).items.heapType = h.items.heapType := by
  induction ops with
  | nil => intro h; rfl
  | cons op ops ih =>
    intro h
    simp only [IntHeap.run, ih, apply_heapType]

/-- C13: the direction is fixed at construction: `NewHeap()` has
`GetHeapType() == MinHeap`, `NewMaxHeap()` has `MaxHeap`, `NewHeapWithType(t)`
has `t`, and `GetHeapType()` still returns that value after any sequence of
`Push` and `Pop` calls. -/
theorem C13_direction_fixed (t : HeapType) (ops : List Op) :
    NewHeap.GetHeapType = HeapType.MinHeap ∧ NewMaxHeap.GetHeapType = HeapType.MaxHeap ∧
    (NewHeapWithType t).GetHeapType = t ∧
    (NewHeap.run ops).GetHeapType = HeapType.MinHeap ∧
    (NewMaxHeap.run ops).GetHeapType = HeapType.MaxHeap ∧
    ((NewHeapWithType t).run ops).GetHeapType = t := by
  have h1 : (NewHeapWithType t).GetHeapType = t := by cases t <;> rfl
  refine ⟨rfl, rfl, h1, ?_, ?_, ?_⟩
  · simp only [IntHeap.GetHeapType, run_heapType]; rfl
  · simp only [IntHeap.GetHeapType, run_heapType]; rfl
  · simp only [IntHeap.GetHeapType, run_heapType]; exact h1

/-- C14: in every heap state `Empty()` is true if and only if `Size() == 0`,
and `Size()` equals `Len()`. -/
theorem C14_empty_iff_size_zero (h : IntHeap) :
    (h.Empty = true ↔ h.Size = 0) ∧ h.Size = h.Len := by
  refine ⟨?_, rfl⟩
  simp only [IntHeap.Empty, IntHeap.Size, decide_eq_true_eq]

end Heap

/-! ## Read-only calls -/

namespace Heap

theorem printTreeHelper_spec (h : IntHeap) : ∀ (fuel k : Nat) (pfx : String) (isLeft : Bool),
    h.items.items.length - k < fuel →
    ∃ o, IntHeap.printTreeHelper fuel h (k : Int) pfx isLeft = (.ok (), o, h) := by
  intro fuel
  induction fuel with
  | zero => intro k _ _ hf; omega
  | succ fuel ih =>
    intro k pfx isLeft hf
    rw [IntHeap.printTreeHelper]
    by_cases hk : (k : Int) ≥ (h.items.items.length : Int)
    · exact ⟨_, if_pos hk⟩
    · rw [if_neg hk]
      have hkl : k < h.items.items.length := by omega
      have e1 : 2 * (k : Int) + 1 = ((2 * k + 1 : Nat) : Int) := by push_cast; ring
      have e2 : 2 * (k : Int) + 2 = ((2 * k + 2 : Nat) : Int) := by push_cast; ring
      simp only [index_ok _ k hkl, e1, e2]
      by_cases hl : ((2 * k + 1 : Nat) : Int) < (h.items.items.length : Int)
      · obtain ⟨o1, q1⟩ := ih (2 * k + 1)
          (if isLeft = true then pfx ++ "    " else pfx ++ "│   ")
          (!decide (((2 * k + 2 : Nat) : Int) < (h.items.items.length : Int))) (by omega)
        simp only [hl, decide_True, if_true, q1]
        by_cases hr : ((2 * k + 2 : Nat) : Int) < (h.items.items.length : Int)
        · obtain ⟨o2, q2⟩ := ih (2 * k + 2)
            (if isLeft = true then pfx ++ "    " else pfx ++ "│   ") true (by omega)
          simp only [hr, decide_True, if_true, q2]
          exact ⟨_, rfl⟩
        · simp only [hr, decide_False]
          exact ⟨_, rfl⟩
      · have hr : ¬ ((2 * k + 2 : Nat) : Int) < (h.items.items.length : Int) := by omega
        simp only [hl, hr, decide_False]
        exact ⟨_, rfl⟩

theorem PrintTree_spec (h : IntHeap) : ∃ o, h.PrintTree = (.ok (), o, h) := by
  unfold IntHeap.PrintTree
  by_cases he : h.Empty = true
  · exact ⟨_, if_pos he⟩
  · rw [if_neg he]
    have hf : h.Len.toNat + 1 = h.items.items.length + 1 := by simp [IntHeap.Len]
    obtain ⟨o, q⟩ := printTreeHelper_spec h (h.items.items.length + 1) 0 "" true (by omega)
    have q2 : IntHeap.printTreeHelper (h.Len.toNat + 1) h 0 "" true = (.ok (), o, h) := by
      rw [hf]
      exact q
    simp only [q2]
    exact ⟨_, rfl⟩

theorem PrintArray_spec (h : IntHeap) : ∃ o, h.PrintArray = (.ok (), o, h) := by
  unfold IntHeap.PrintArray
  by_cases he : h.Empty = true
  · exact ⟨_, if_pos he⟩
  · rw [if_neg he]
    exact ⟨_, rfl⟩

theorem Peek_returns (h : IntHeap) : ∃ v, h.Peek = .ok v := by
  obtain ⟨⟨xs, t⟩⟩ := h
  by_cases hx : xs = []
  · subst hx
    exact ⟨0, rfl⟩
  · exact ⟨_, Peek_nonempty t xs hx⟩

/-- C15: the read-only methods do not mutate the heap: each of `Peek`, `Len`,
`Size`, `Empty`, `GetHeapType`, `PrintTree` and `PrintArray` returns on every
heap state, and the element sequence and the direction after the call are
those before it. -/
theorem C15_read_only (h : IntHeap) (c : ReadCall) :
    h.readReturns c = true ∧ (h.afterRead c).items.items = h.items.items ∧
      (h.afterRead c).GetHeapType = h.GetHeapType ∧ h.afterRead c = h := by
  cases c with
  | Peek =>
    obtain ⟨v, e⟩ := Peek_returns h
    refine ⟨?_, ?_, ?_, ?_⟩ <;>
      first
        | (simp only [IntHeap.readReturns, IntHeap.afterRead, e]; done)
        | (simp only [IntHeap.readReturns, IntHeap.afterRead, e]; rfl)
  | PrintTree =>
    obtain ⟨o, e⟩ := PrintTree_spec h
    refine ⟨?_, ?_, ?_, ?_⟩ <;>
      first
        | (simp only [IntHeap.readReturns, IntHeap.afterRead, e]; done)
        | (simp only [IntHeap.readReturns, IntHeap.afterRead, e]; rfl)
  | PrintArray =>
    obtain ⟨o, e⟩ := PrintArray_spec h
    refine ⟨?_, ?_, ?_, ?_⟩ <;>
      first
        | (simp only [IntHeap.readReturns, IntHeap.afterRead, e]; done)
        | (simp only [IntHeap.readReturns, IntHeap.afterRead, e]; rfl)
  | Len => exact ⟨rfl, rfl, rfl, rfl⟩
  | Size => exact ⟨rfl, rfl, rfl, rfl⟩
  | Empty => exact ⟨rfl, rfl, rfl, rfl⟩
  | GetHeapType => exact ⟨rfl, rfl, rfl, rfl⟩

end Heap

/-! ## Index safety, peek after push, the empty-state value of `Peek` -/

namespace Heap

/-- C17, index safety: for every element sequence, ordered or not, either
direction and every `x`, `Push(x)` returns without an out-of-range index; on
every non-empty element sequence `Pop` returns without one; and `Pop` on an
empty heap is the failing call — it panics with an index out of range. -/
theorem C17_index_safety (h : IntHeap) (x : Int) :
    (h.Push x).1 = .ok () ∧
    (h.Len ≠ 0 → ∃ v, h.Pop.1 = .ok v) ∧
    (h.Len = 0 → h.Pop.1 = .error Panic.indexOutOfRange) ∧
    ((∃ e, h.Pop.1 = .error e) ↔ h.Len = 0) := by
  have hpop : h.Len ≠ 0 → ∃ v, h.Pop.1 = .ok v := fun hne => (Size_Pop h hne).1
  have hemp : h.Len = 0 → h.Pop.1 = .error Panic.indexOutOfRange := by
    intro he
    obtain ⟨⟨xs, t⟩⟩ := h
    have hx : xs = [] := (Len_eq_zero_iff _).mp he
    subst hx
    rw [IntHeap_Pop_empty]
  refine ⟨(Size_Push h x).1, hpop, hemp, ?_, ?_⟩
  · rintro ⟨e, he⟩
    by_contra hne
    obtain ⟨v, hv⟩ := hpop hne
    rw [hv] at he
    cases he
  · intro he
    exact ⟨_, hemp he⟩

theorem min_of_bounds {r x p : Int} (h1 : r ≤ x) (h2 : r ≤ p) (h3 : r = x ∨ p ≤ r) :
    r = min x p := by
  rcases h3 with h3 | h3
  · subst h3; exact (min_eq_left h2).symm
  · have : r = p := le_antisymm h2 h3
    subst this; exact (min_eq_right h1).symm

theorem max_of_bounds {r x p : Int} (h1 : x ≤ r) (h2 : p ≤ r) (h3 : r = x ∨ r ≤ p) :
    r = max x p := by
  rcases h3 with h3 | h3
  · subst h3; exact (max_eq_left h2).symm
  · have : r = p := le_antisymm h3 h2
    subst this; exact (max_eq_right h1).symm

/-- C19, Peek after Push: on a heap satisfying the heap-order invariant,
`Peek()` after `Push(x)` is `x` if the heap was empty, and otherwise
`min(x, previous Peek())` for a min-heap and `max(x, previous Peek())` for a
max-heap. -/
theorem C19_peek_after_push (h : IntHeap) (x : Int)
    (hord : HeapOrdered h.GetHeapType h.items.items) :
    (h.Len = 0 → (h.Push x).2.Peek = .ok x) ∧
    (h.Len ≠ 0 → ∃ p, h.Peek = .ok p ∧
      (h.GetHeapType = HeapType.MinHeap → (h.Push x).2.Peek = .ok (min x p)) ∧
      (h.GetHeapType = HeapType.MaxHeap → (h.Push x).2.Peek = .ok (max x p))) := by
  obtain ⟨⟨xs, t⟩⟩ := h
  have ho : HeapOrdered t xs := hord
  obtain ⟨ys, e, perm, hh⟩ := IntHeap_Push_spec t xs x
  have hys : ys ≠ [] := by
    intro hy
    have := perm.length_eq
    rw [hy] at this
    simp at this
  have hpk : (IntHeap.mk (intSlice.mk ys t)).Peek = .ok (ys.getD 0 0) := Peek_nonempty t ys hys
  have hroot : ys.getD 0 0 ∈ xs ++ [x] := perm.subset (root_mem ys hys)
  have hx : x ∈ ys := perm.symm.subset (by simp)
  constructor
  · intro he
    have hxs : xs = [] := (Len_eq_zero_iff _).mp he
    subst hxs
    rw [e, hpk]
    simp only [List.nil_append, List.mem_singleton] at hroot
    rw [hroot]
  · intro hne
    have hxs : xs ≠ [] := fun hx => hne ((Len_eq_zero_iff _).mpr hx)
    have hp : xs.getD 0 0 ∈ ys := perm.symm.subset (List.mem_append_left _ (root_mem xs hxs))
    have hcase : ys.getD 0 0 = x ∨ ys.getD 0 0 ∈ xs := by
      rcases List.mem_append.mp hroot with hm | hm
      · exact Or.inr hm
      · exact Or.inl (List.mem_singleton.mp hm)
    refine ⟨xs.getD 0 0, Peek_nonempty t xs hxs, ?_, ?_⟩
    · intro ht
      have ht2 : t = HeapType.MinHeap := ht
      subst ht2
      rw [e, hpk]
      have b1 : ys.getD 0 0 ≤ x := root_rel_mem (hh ho) x hx
      have b2 : ys.getD 0 0 ≤ xs.getD 0 0 := root_rel_mem (hh ho) _ hp
      have b3 : ys.getD 0 0 = x ∨ xs.getD 0 0 ≤ ys.getD 0 0 :=
        hcase.imp id (fun hm => root_rel_mem ho _ hm)
      rw [min_of_bounds b1 b2 b3]
    · intro ht
      have ht2 : t = HeapType.MaxHeap := ht
      subst ht2
      rw [e, hpk]
      have b1 : x ≤ ys.getD 0 0 := root_rel_mem (hh ho) x hx
      have b2 : xs.getD 0 0 ≤ ys.getD 0 0 := root_rel_mem (hh ho) _ hp
      have b3 : ys.getD 0 0 = x ∨ ys.getD 0 0 ≤ xs.getD 0 0 :=
        hcase.imp id (fun hm => root_rel_mem ho _ hm)
      rw [max_of_bounds b1 b2 b3]

/-- Witness for C19: pushing `2` onto the min-heap with elements `[3, 8, 5]`. -/
theorem C19_peek_after_push_witness :
    HeapOrdered (IntHeap.mk (intSlice.mk [3, 8, 5] HeapType.MinHeap)).GetHeapType
      (IntHeap.mk (intSlice.mk [3, 8, 5] HeapType.MinHeap)).items.items ∧
    ((IntHeap.mk (intSlice.mk [3, 8, 5] HeapType.MinHeap)).Len = 0 →
      ((IntHeap.mk (intSlice.mk [3, 8, 5] HeapType.MinHeap)).Push 2).2.Peek = .ok 2) ∧
    ((IntHeap.mk (intSlice.mk [3, 8, 5] HeapType.MinHeap)).Len ≠ 0 →
      ∃ p, (IntHeap.mk (intSlice.mk [3, 8, 5] HeapType.MinHeap)).Peek = .ok p ∧
        ((IntHeap.mk (intSlice.mk [3, 8, 5] HeapType.MinHeap)).GetHeapType = HeapType.MinHeap →
          ((IntHeap.mk (intSlice.mk [3, 8, 5] HeapType.MinHeap)).Push 2).2.Peek =
            .ok (min 2 p)) ∧
        ((IntHeap.mk (intSlice.mk [3, 8, 5] HeapType.MinHeap)).GetHeapType = HeapType.MaxHeap →
          ((IntHeap.mk (intSlice.mk [3, 8, 5] HeapType.MinHeap)).Push 2).2.Peek =
            .ok (max 2 p))) :=
  ⟨by decide,
    C19_peek_after_push (IntHeap.mk (intSlice.mk [3, 8, 5] HeapType.MinHeap)) 2 (by decide)⟩

/-- C20: the value `Peek` returns on an empty heap cannot be told from a stored
element: the fresh heap after `Push(0)` is reachable and non-empty, and
`Peek()` returns `0` on it, the value it also returns on the empty fresh heap;
so `Peek() == 0` does not imply `Empty()`. -/
theorem C20_peek_zero_ambiguous :
    Reachable (NewHeap.Push 0).2 ∧ (NewHeap.Push 0).2.Empty = false ∧
    (NewHeap.Push 0).2.Peek = .ok 0 ∧ NewHeap.Empty = true ∧ NewHeap.Peek = .ok 0 ∧
    ¬ (∀ h : IntHeap, Reachable h → h.Peek = .ok 0 → h.Empty = true) := by
  have hr : Reachable (NewHeap.Push 0).2 := Reachable.push 0 (Reachable.fresh HeapType.MinHeap)
  refine ⟨hr, by decide, by decide, by decide, by decide, fun hall => ?_⟩
  have := hall _ hr (by decide)
  revert this
  decide

end Heap

/-! ## Min/max duality -/

namespace Heap

theorem getD_map_neg (xs : List Int) (n : Nat) :
    (xs.map (fun a => -a)).getD n 0 = -(xs.getD n 0) := by
  have := List.getD_map xs 0 (fun a : Int => -a) (n := n)
  simpa using this

theorem index_map_neg (xs : List Int) (i : Int) :
    index (xs.map (fun a => -a)) i =
      match index xs i with
      | .ok a => .ok (-a)
      | .error e => .error e := by
  unfold index
  rw [List.length_map, getD_map_neg]
  by_cases h : 0 ≤ i ∧ i < (xs.length : Int)
  · rw [if_pos h, if_pos h]
  · rw [if_neg h, if_neg h]

theorem Less_negSlice (h : intSlice) (i j : Int) : (negSlice h).Less i j = h.Less i j := by
  obtain ⟨xs, t⟩ := h
  cases t <;>
    simp only [negSlice, HeapType.flip, intSlice.Less, index_map_neg, if_true, if_false,
      reduceCtorEq] <;>
    cases index xs i <;> simp only [] <;> cases index xs j <;> simp only [] <;>
    simp

theorem Swap_negSlice (h : intSlice) (i j : Int) :
    (negSlice h).Swap i j =
      match h.Swap i j with
      | .ok h1 => .ok (negSlice h1)
      | .error e => .error e := by
  obtain ⟨xs, t⟩ := h
  simp only [negSlice, intSlice.Swap, index_map_neg]
  cases index xs j <;> simp only []
  cases index xs i <;> simp only []
  simp [List.map_set]

theorem Len_negSlice (h : intSlice) : (negSlice h).Len = h.Len := by
  simp [negSlice, intSlice.Len]

theorem upLoop_neg : ∀ (fuel : Nat) (h : intSlice) (j : Int),
    ContainerHeap.upLoop fuel (negSlice h) j =
      ((ContainerHeap.upLoop fuel h j).1, negSlice (ContainerHeap.upLoop fuel h j).2) := by
  intro fuel
  induction fuel with
  | zero => intro h j; rfl
  | succ fuel ih =>
    intro h j
    rw [ContainerHeap.upLoop, ContainerHeap.upLoop]
    simp only [Less_negSlice, Swap_negSlice]
    by_cases hij : (j - 1).tdiv 2 = j
    · simp only [hij, if_true]
    · simp only [hij, if_false]
      cases h.Less j ((j - 1).tdiv 2) with
      | error e => rfl
      | ok b =>
        cases b with
        | false => rfl
        | true =>
          simp only []
          cases h.Swap ((j - 1).tdiv 2) j with
          | error e => rfl
          | ok h1 => exact ih h1 _

theorem downLoop_neg (i0 n : Int) : ∀ (fuel : Nat) (h : intSlice) (i : Int),
    ContainerHeap.downLoop fuel (negSlice h) i0 i n =
      ((ContainerHeap.downLoop fuel h i0 i n).1,
        negSlice (ContainerHeap.downLoop fuel h i0 i n).2) := by
  intro fuel
  induction fuel with
  | zero => intro h i; rfl
  | succ fuel ih =>
    intro h i
    rw [ContainerHeap.downLoop, ContainerHeap.downLoop]
    simp only [Less_negSlice, Swap_negSlice]
    by_cases hstop : 2 * i + 1 ≥ n ∨ 2 * i + 1 < 0
    · simp only [hstop, if_true]
    · simp only [hstop, if_false]
      cases (if 2 * i + 1 + 1 < n then h.Less (2 * i + 1 + 1) (2 * i + 1) else .ok false) with
      | error e => rfl
      | ok right =>
        simp only []
        cases h.Less (if right = true then 2 * i + 1 + 1 else 2 * i + 1) i with
        | error e => rfl
        | ok b =>
          cases b with
          | false => rfl
          | true =>
            simp only []
            cases h.Swap i (if right = true then 2 * i + 1 + 1 else 2 * i + 1) with
            | error e => rfl
            | ok h1 => exact ih h1 _

theorem intSlice_Push_neg (h : intSlice) (x : Int) :
    (negSlice h).Push (-x) = negSlice (h.Push x) := by
  simp [negSlice, intSlice.Push]

theorem intSlice_Pop_neg (h : intSlice) :
    (negSlice h).Pop =
      (match h.Pop.1 with
        | .ok v => .ok (-v)
        | .error e => .error e, negSlice h.Pop.2) := by
  obtain ⟨xs, t⟩ := h
  simp only [negSlice, intSlice.Pop, index_map_neg, List.length_map]
  cases index xs ((xs.length : Int) - 1) with
  | error e => rfl
  | ok v => simp [List.map_take]

theorem ContainerHeap_Push_neg (h : intSlice) (x : Int) :
    ContainerHeap.Push (negSlice h) (-x) =
      ((ContainerHeap.Push h x).1, negSlice (ContainerHeap.Push h x).2) := by
  simp only [ContainerHeap.Push, ContainerHeap.up, intSlice_Push_neg, Len_negSlice, upLoop_neg]

theorem ContainerHeap_Pop_neg (h : intSlice) :
    ContainerHeap.Pop (negSlice h) =
      (match (ContainerHeap.Pop h).1 with
        | .ok v => .ok (-v)
        | .error e => .error e, negSlice (ContainerHeap.Pop h).2) := by
  simp only [ContainerHeap.Pop, ContainerHeap.down, Len_negSlice, Swap_negSlice]
  cases h.Swap 0 (h.Len - 1) with
  | error e => rfl
  | ok h1 =>
    simp only [downLoop_neg]
    cases hd : ContainerHeap.downLoop ((h.Len - 1 - 0).toNat + 1) h1 0 0 (h.Len - 1) with
    | mk r h2 =>
      cases r with
      | error e => rfl
      | ok b =>
        simp only [intSlice_Pop_neg]

theorem trace_neg : ∀ (ops : List Op) (h : IntHeap),
    (negHeap h).trace ops = (h.trace (ops.map negOp)).map negStep := by
  intro ops
  induction ops with
  | nil => intro h; rfl
  | cons op ops ih =>
    intro h
    cases op with
    | push x =>
      have e := ContainerHeap_Push_neg h.items (-x)
      rw [neg_neg] at e
      have e2 : (negHeap h).Push x = ((h.Push (-x)).1, negHeap (h.Push (-x)).2) := by
        simp only [IntHeap.Push, negHeap, e]
      simp only [List.map_cons, negOp, IntHeap.trace, e2, ih, negStep]
      cases (h.Push (-x)).1 <;> rfl
    | pop =>
      have e := ContainerHeap_Pop_neg h.items
      have e2 : (negHeap h).Pop =
          (match h.Pop.1 with
            | .ok v => .ok (-v)
            | .error e => .error e, negHeap h.Pop.2) := by
        simp only [IntHeap.Pop, negHeap, e]
      simp only [List.map_cons, negOp, IntHeap.trace, e2, ih, negStep]
      cases h.Pop.1 <;> rfl

/-- C18, min/max duality over the mathematical integers: for every sequence of
`Push` and `Pop` calls, the run on a fresh max-heap shows at every step the
outcome (the value a `Pop` returns, or its panic) and the element sequence that
are the element-wise negation of those of the run, on a fresh min-heap, of the
same sequence with every pushed value negated. -/
theorem C18_min_max_duality (ops : List Op) :
    NewMaxHeap.trace ops = (NewHeap.trace (ops.map negOp)).map negStep := by
  have h0 : NewMaxHeap = negHeap NewHeap := by decide
  rw [h0]
  exact trace_neg ops NewHeap

end Heap

/-! ## Refinement of the specification's extraction algorithm -/

namespace Heap

theorem less_iff_not_rel (t : HeapType) (a b : Int) : t.less b a = true ↔ ¬ t.rel a b := by
  cases t <;> simp only [HeapType.rel, HeapType.less, decide_eq_true_eq] <;> omega

theorem getD_take_lt (xs : List Int) (n k : Nat) (h : k < n) :
    (xs.take n).getD k 0 = xs.getD k 0 := by
  simp [List.getD_eq_getElem?_getD, List.getElem?_take_of_lt h]

theorem take_swapAt (xs : List Int) (n i j : Nat) (hi : i < n) (hj : j < n) :
    (swapAt xs i j).take n = swapAt (xs.take n) i j := by
  apply List.ext_getElem?
  intro k
  simp only [swapAt, getD_take_lt xs n i hi, getD_take_lt xs n j hj, List.getElem?_take,
    List.getElem?_set, List.length_set, List.length_take]
  by_cases hk : k < n
  · simp only [hk, if_true]
    by_cases h1 : j = k
    · subst h1
      simp only [if_true]
      by_cases hl : j < xs.length
      · have : j < min n xs.length := by omega
        simp [hl, this]
      · have : ¬ j < min n xs.length := by omega
        simp [hl, this]
    · simp only [h1, if_false]
      by_cases h2 : i = k
      · subst h2
        simp only [if_true]
        by_cases hl : i < xs.length
        · have : i < min n xs.length := by omega
          simp [hl, this]
        · have : ¬ i < min n xs.length := by omega
          simp [hl, this]
      · simp only [h2, if_false, hk, if_true]
  · simp only [hk, if_false]
    have h1 : ¬ j = k := by omega
    have h2 : ¬ i = k := by omega
    simp only [h1, h2, if_false, hk]

theorem spec_choice_eq (t : HeapType) (xs : List Int) (i n : Nat) (hn : n ≤ xs.length)
    (h : 2 * i + 1 < n) :
    (if 2 * i + 2 < (xs.take n).length ∧
        ¬ t.rel ((xs.take n).getD (2 * i + 1) 0) ((xs.take n).getD (2 * i + 2) 0)
      then 2 * i + 2 else 2 * i + 1) = pickChild t xs i n := by
  have hl : (xs.take n).length = n := by simp [hn]
  unfold pickChild
  rw [hl]
  by_cases h2 : 2 * i + 2 < n
  · rw [getD_take_lt xs n _ h, getD_take_lt xs n _ h2]
    simp only [h2, true_and, less_iff_not_rel]
  · have e1 : ¬ (2 * i + 2 < n ∧
        ¬ t.rel ((xs.take n).getD (2 * i + 1) 0) ((xs.take n).getD (2 * i + 2) 0)) :=
      fun hh => h2 hh.1
    have e2 : ¬ (2 * i + 2 < n ∧
        t.less (xs.getD (2 * i + 2) 0) (xs.getD (2 * i + 1) 0) = true) := fun hh => h2 hh.1
    rw [if_neg e1, if_neg e2]

theorem downLoop_refines (t : HeapType) (i0 : Int) (n : Nat) :
    ∀ (fuel : Nat) (xs : List Int) (i : Nat), n ≤ xs.length → n - i < fuel →
    ∃ ys b, ContainerHeap.downLoop fuel (intSlice.mk xs t) i0 (i : Int) (n : Int) =
        (.ok b, intSlice.mk ys t) ∧
      specSiftDown t fuel (xs.take n) i = some (ys.take n) := by
  intro fuel
  induction fuel with
  | zero => intro xs i _ h; omega
  | succ fuel ih =>
    intro xs i hn hfuel
    have hl : (xs.take n).length = n := by simp [hn]
    by_cases hstop : n ≤ 2 * i + 1
    · refine ⟨xs, _, downLoop_stop t fuel xs i0 i n hstop, ?_⟩
      rw [specSiftDown, hl, if_pos hstop]
    · have hgo : 2 * i + 1 < n := by omega
      have hj : 0 < pickChild t xs i n ∧ pickChild t xs i n < n ∧ i < pickChild t xs i n := by
        rcases pickChild_cases t xs i n with h | ⟨h, h2⟩ <;> rw [h] <;> omega
      obtain ⟨_, hjn, hij⟩ := hj
      have hin : i < n := by omega
      rw [downLoop_step t fuel xs i0 i n hn hgo, specSiftDown]
      simp only [spec_choice_eq t xs i n hn hgo]
      rw [hl, if_neg hstop, getD_take_lt xs n _ hin, getD_take_lt xs n _ hjn]
      cases hless : t.less (xs.getD (pickChild t xs i n) 0) (xs.getD i 0) with
      | false =>
        have hrel : ¬ ¬ t.rel (xs.getD i 0) (xs.getD (pickChild t xs i n) 0) := by
          rw [← less_iff_not_rel, hless]
          simp
        rw [if_neg hrel]
        exact ⟨xs, _, if_neg (by simp), rfl⟩
      | true =>
        have hrel : ¬ t.rel (xs.getD i 0) (xs.getD (pickChild t xs i n) 0) :=
          (less_iff_not_rel t _ _).mp hless
        rw [if_pos rfl, if_pos hrel, ← take_swapAt xs n i _ hin hjn]
        exact ih (swapAt xs i (pickChild t xs i n)) (pickChild t xs i n)
          (by rw [length_swapAt]; exact hn) (by omega)

theorem moved_eq (root : Int) (rest : List Int) :
    ((root :: rest).set 0 ((root :: rest).getD rest.length 0)).dropLast =
      (swapAt (root :: rest) 0 rest.length).take rest.length := by
  rw [List.dropLast_eq_take]
  apply List.ext_getElem?
  intro k
  simp only [swapAt, List.getElem?_take, List.getElem?_set, List.length_set, List.length_cons,
    Nat.add_sub_cancel]
  by_cases hk : k < rest.length
  · have h1 : ¬ rest.length = k := by omega
    simp only [hk, if_true, h1, if_false]
  · simp only [hk, if_false]

/-- C16: `Pop` refines the extraction algorithm of the specification: on every
non-empty element sequence and for either direction, the code's `Pop` (swap
index 0 with the last index, sift index 0 down within the first `n-1`
positions, remove the last position) returns the value and leaves the element
sequence that the described algorithm (save the root, move the last element
into index 0, shrink by one, sift the new root down) computes. -/
theorem C16_pop_refines_spec (t : HeapType) (xs : List Int) (hne : xs ≠ []) :
    ∃ v ys, (IntHeap.mk (intSlice.mk xs t)).Pop = (.ok v, IntHeap.mk (intSlice.mk ys t)) ∧
      specExtractTop t xs = some (v, ys) := by
  cases xs with
  | nil => exact absurd rfl hne
  | cons root rest =>
    have hm : (root :: rest).length = rest.length + 1 := rfl
    have e1 : (intSlice.mk (root :: rest) t).Len - 1 = ((rest.length : Nat) : Int) := by
      simp [intSlice.Len]
    have e2 : (intSlice.mk (root :: rest) t).Swap 0 ((rest.length : Nat) : Int) =
        .ok (intSlice.mk (swapAt (root :: rest) 0 rest.length) t) := by
      have := Swap_ok t (root :: rest) 0 rest.length (by omega) (by omega)
      simpa using this
    obtain ⟨zs, b, e, hspec⟩ := downLoop_refines t 0 rest.length (rest.length + 1)
      (swapAt (root :: rest) 0 rest.length) 0 (by rw [length_swapAt]; omega) (by omega)
    obtain ⟨zs2, b2, e', p, hk, _⟩ := downLoop_spec t 0 rest.length (rest.length + 1)
      (swapAt (root :: rest) 0 rest.length) 0 (by rw [length_swapAt]; omega) (by omega)
    have hzz : zs2 = zs := by
      have h3 := e'.symm.trans e
      injection h3 with _ h4
      injection h4
    subst hzz
    have e3 : ContainerHeap.down (intSlice.mk (swapAt (root :: rest) 0 rest.length) t) 0
        ((rest.length : Nat) : Int) = (.ok b, intSlice.mk zs2 t) := by
      have : (((rest.length : Nat) : Int) - 0).toNat + 1 = rest.length + 1 := by simp
      simp only [ContainerHeap.down, this]
      exact e
    have hzl : zs2.length = rest.length + 1 := by rw [p.length_eq, length_swapAt, hm]
    have hzm : zs2.getD rest.length 0 = root := by
      rw [hk rest.length (le_refl _), getD_swapAt _ _ _ _ (by omega) (by omega), if_pos rfl]
      rfl
    have e4 : (intSlice.mk zs2 t).Pop = (.ok root, intSlice.mk (zs2.take rest.length) t) := by
      have h1 : ((zs2.length : Nat) : Int) - 1 = ((rest.length : Nat) : Int) := by
        rw [hzl]; omega
      simp only [intSlice.Pop, h1, index_ok zs2 rest.length (by omega), hzm, Int.toNat_ofNat]
    refine ⟨root, zs2.take rest.length, ?_, ?_⟩
    · simp only [IntHeap.Pop, ContainerHeap.Pop, e1, e2, e3, e4]
    · have hml : ((swapAt (root :: rest) 0 rest.length).take rest.length).length =
          rest.length := by
        rw [List.length_take, length_swapAt, hm]
        omega
      simp only [specExtractTop, moved_eq, hml, hspec]

/-- Witness for C16: the min-heap with elements `[1, 2, 2, 3]`, whose root has
two equal children. -/
theorem C16_pop_refines_spec_witness :
    ([1, 2, 2, 3] : List Int) ≠ [] ∧
    ∃ v ys, (IntHeap.mk (intSlice.mk [1, 2, 2, 3] HeapType.MinHeap)).Pop =
        (.ok v, IntHeap.mk (intSlice.mk ys HeapType.MinHeap)) ∧
      specExtractTop HeapType.MinHeap [1, 2, 2, 3] = some (v, ys) :=
  ⟨by decide, C16_pop_refines_spec HeapType.MinHeap [1, 2, 2, 3] (by decide)⟩

end Heap
